import Mathlib

/-!
Verification development for the automated-notes-generator pipeline.

The Python modules under `src/modules` are shallowly embedded here:
pure functions become Lean functions over `String` / `List Char`,
Python floats are modelled as exact rationals (`ℚ`, with `int()`
truncation of non-negative values modelled via `Rat.floor`), Python's
stateful `set` fields become explicit state passing, and the specific
regular expressions used by the code are compiled by hand into
character-level matchers with Python `re.sub` / `re.search` semantics
(left-to-right scan, non-overlapping matches, greedy quantifiers,
ASCII reading of the character classes `\w`, `\s`, `\d`, `[a-z]`).
The standard library `difflib.SequenceMatcher` is embedded in full
(including autojunk); the external numeric libraries (sklearn,
networkx, rake, spacy) are modelled as explicitly passed inputs where
the claims quantify over their output ("regardless of scores").
-/

namespace Notes

/-- Python `\s` (ASCII): space, tab, newline, carriage return, vertical tab, form feed. -/
def isPySpace (c : Char) : Bool :=
  c = ' ' || c = '\t' || c = '\n' || c = '\r' || c = '\x0b' || c = '\x0c'

/-- Python `\w` (ASCII): letters, digits, underscore. -/
def isWordChar (c : Char) : Bool := c.isAlpha || c.isDigit || c = '_'

/-- character class `[a-z]`. -/
def isLowerCh (c : Char) : Bool := 'a' ≤ c && c ≤ 'z'

/-- character class `[A-Z]`. -/
def isUpperCh (c : Char) : Bool := 'A' ≤ c && c ≤ 'Z'

/-- character class `\d`. -/
def isDigitCh (c : Char) : Bool := '0' ≤ c && c ≤ '9'

/-- character class `[a-zA-Z]`. -/
def isLetterCh (c : Char) : Bool := isLowerCh c || isUpperCh c

/-- character class `[a-z\s]` used by the QA sentence patterns. -/
def isLowerOrSpace (c : Char) : Bool := isLowerCh c || isPySpace c

/-- Python `str.lower()` (ASCII). -/
def lowerChars (l : List Char) : List Char := l.map Char.toLower

/-- Python `str.strip()` (ASCII whitespace). -/
def pyStripL (l : List Char) : List Char :=
  ((l.dropWhile isPySpace).reverse.dropWhile isPySpace).reverse

/-- Python `str.strip()` on strings. -/
def pyStrip (s : String) : String := (pyStripL s.toList).asString

/-- Python `str.lower()` on strings. -/
def pyLower (s : String) : String := (lowerChars s.toList).asString

/-- Python `str.split()` with no argument (helper): accumulates the current word. -/
def pySplitGo : List Char → List Char → List (List Char)
  | acc, [] => if acc.isEmpty then [] else [acc.reverse]
  | acc, c :: rest =>
      if isPySpace c then
        if acc.isEmpty then pySplitGo [] rest else acc.reverse :: pySplitGo [] rest
      else pySplitGo (c :: acc) rest

/-- Python `str.split()` with no argument: split on whitespace runs, no empty pieces. -/
def pySplitL (l : List Char) : List (List Char) := pySplitGo [] l

/-- Python `s.split()` on strings. -/
def pySplit (s : String) : List String := (pySplitL s.toList).map List.asString

/-- Python `' '.join(words)` after `split()`, as used by `_normalize_text`. -/
def joinSpace (ws : List (List Char)) : List Char :=
  (List.intersperse [' '] ws).flatten

/-- substring test (Python `in` on strings). -/
def containsSub (hay pat : List Char) : Bool :=
  (List.range (hay.length + 1)).any fun i => (hay.drop i).take pat.length = pat

/-- case-insensitive substring test (`pat` given in lowercase). -/
def containsSubCI (hay pat : List Char) : Bool := containsSub (lowerChars hay) pat

/-- word-boundary just before position: previous char absent or not `\w`. -/
def boundaryBefore : Option Char → Bool
  | none => true
  | some c => !isWordChar c

/-- word-boundary just after a match: rest empty or next char not `\w`. -/
def boundaryAfter : List Char → Bool
  | [] => true
  | c :: _ => !isWordChar c

/-!
Generic engine for Python `re.sub` over the fixed patterns used by the
code.  A matcher receives the character preceding the current position
(for `\b`) and the current suffix, and returns `some (len, rep)` when
the pattern matches a span of `len ≥ 1` characters here, to be replaced
by `rep`.  Like `re.sub`, scanning continues in the original text just
after the matched span.  The fuel is the suffix length, which suffices
because every pattern used consumes at least one character.
-/

def Matcher : Type := Option Char → List Char → Option (Nat × List Char)

/-- re.sub scanning loop (fuel-indexed; fuel = initial length suffices). -/
def reSubGo (m : Matcher) : Nat → Option Char → List Char → List Char
  | 0, _, l => l
  | _ + 1, _, [] => []
  | fuel + 1, prev, c :: rest =>
      match m prev (c :: rest) with
      | some (len, rep) =>
          rep ++ reSubGo m fuel ((c :: rest).get? (len - 1)) ((c :: rest).drop len)
      | none => c :: reSubGo m fuel (some c) rest

/-- Python `re.sub(pattern, repl, text)` for one of our fixed matchers. -/
def reSub (m : Matcher) (l : List Char) : List Char := reSubGo m l.length none l

/-!
`AdvancedTextCleaner.clean_concatenated_text` (src/modules/advanced_cleaner.py,
lines 23-70): twelve `re.sub` passes applied in source order.
-/

/-- alternatives of `(in|at|on|ed|er|ly|en)` in the first OCR fix. -/
def ocrAlts : List (List Char) :=
  [['i','n'], ['a','t'], ['o','n'], ['e','d'], ['e','r'], ['l','y'], ['e','n']]

/-- `\b(\w+)\s+(in|at|on|ed|er|ly|en)\s+g\b` → `\1\2g`. -/
def mOcrG : Matcher := fun prev l =>
  if !boundaryBefore prev then none else
  let w1 := l.takeWhile isWordChar
  if w1.isEmpty then none else
  let r1 := l.drop w1.length
  let s1 := r1.takeWhile isPySpace
  if s1.isEmpty then none else
  match r1.drop s1.length with
  | a :: b :: r3 =>
      if [a, b] ∈ ocrAlts then
        let s2 := r3.takeWhile isPySpace
        if s2.isEmpty then none else
        match r3.drop s2.length with
        | 'g' :: r4 =>
            if boundaryAfter r4 then
              some (w1.length + s1.length + 2 + s2.length + 1, w1 ++ [a, b, 'g'])
            else none
        | _ => none
      else none
  | _ => none

/-- `\b(\w+)\s+at\s+ion\b` → `\1ation`. -/
def mAtIon : Matcher := fun prev l =>
  if !boundaryBefore prev then none else
  let w1 := l.takeWhile isWordChar
  if w1.isEmpty then none else
  let r1 := l.drop w1.length
  let s1 := r1.takeWhile isPySpace
  if s1.isEmpty then none else
  match r1.drop s1.length with
  | 'a' :: 't' :: r3 =>
      let s2 := r3.takeWhile isPySpace
      if s2.isEmpty then none else
      match r3.drop s2.length with
      | 'i' :: 'o' :: 'n' :: r4 =>
          if boundaryAfter r4 then
            some (w1.length + s1.length + 2 + s2.length + 3, w1 ++ ['a','t','i','o','n'])
          else none
      | _ => none
  | _ => none

/-- `\b(\w+)\s+on\s+s\b` → `\1ons`. -/
def mOnS : Matcher := fun prev l =>
  if !boundaryBefore prev then none else
  let w1 := l.takeWhile isWordChar
  if w1.isEmpty then none else
  let r1 := l.drop w1.length
  let s1 := r1.takeWhile isPySpace
  if s1.isEmpty then none else
  match r1.drop s1.length with
  | 'o' :: 'n' :: r3 =>
      let s2 := r3.takeWhile isPySpace
      if s2.isEmpty then none else
      match r3.drop s2.length with
      | 's' :: r4 =>
          if boundaryAfter r4 then
            some (w1.length + s1.length + 2 + s2.length + 1, w1 ++ ['o','n','s'])
          else none
      | _ => none
  | _ => none

/-- `\bc\s+on\s+` → `con` (the trailing whitespace is consumed, none re-emitted). -/
def mCOn : Matcher := fun prev l =>
  if !boundaryBefore prev then none else
  match l with
  | 'c' :: r1 =>
      let s1 := r1.takeWhile isPySpace
      if s1.isEmpty then none else
      match r1.drop s1.length with
      | 'o' :: 'n' :: r3 =>
          let s2 := r3.takeWhile isPySpace
          if s2.isEmpty then none else
          some (1 + s1.length + 2 + s2.length, ['c','o','n'])
      | _ => none
  | _ => none

/-- `\bin\s+for\s+m` → `inform`. -/
def mInForM : Matcher := fun prev l =>
  if !boundaryBefore prev then none else
  match l with
  | 'i' :: 'n' :: r1 =>
      let s1 := r1.takeWhile isPySpace
      if s1.isEmpty then none else
      match r1.drop s1.length with
      | 'f' :: 'o' :: 'r' :: r3 =>
          let s2 := r3.takeWhile isPySpace
          if s2.isEmpty then none else
          match r3.drop s2.length with
          | 'm' :: _ =>
              some (2 + s1.length + 3 + s2.length + 1, ['i','n','f','o','r','m'])
          | _ => none
      | _ => none
  | _ => none

/-- `\bto\s+(r|s|w)\b` → `tor` (the replacement is the literal `tor` for all three). -/
def mToRSW : Matcher := fun prev l =>
  if !boundaryBefore prev then none else
  match l with
  | 't' :: 'o' :: r1 =>
      let s1 := r1.takeWhile isPySpace
      if s1.isEmpty then none else
      match r1.drop s1.length with
      | c :: r3 =>
          if (c = 'r' || c = 's' || c = 'w') && boundaryAfter r3 then
            some (2 + s1.length + 1, ['t','o','r'])
          else none
      | _ => none
  | _ => none

/-- `([a-z])([A-Z])` → `\1 \2`. -/
def mLowerUpper : Matcher := fun _ l =>
  match l with
  | c1 :: c2 :: _ =>
      if isLowerCh c1 && isUpperCh c2 then some (2, [c1, ' ', c2]) else none
  | _ => none

/-- `([a-z])(\d)` → `\1 \2`. -/
def mLowerDigit : Matcher := fun _ l =>
  match l with
  | c1 :: c2 :: _ =>
      if isLowerCh c1 && isDigitCh c2 then some (2, [c1, ' ', c2]) else none
  | _ => none

/-- `(\d)([a-zA-Z])` → `\1 \2`. -/
def mDigitLetter : Matcher := fun _ l =>
  match l with
  | c1 :: c2 :: _ =>
      if isDigitCh c1 && isLetterCh c2 then some (2, [c1, ' ', c2]) else none
  | _ => none

/-- `([a-z])([A-Z][a-z])` → `\1 \2`. -/
def mLowerUpperLower : Matcher := fun _ l =>
  match l with
  | c1 :: c2 :: c3 :: _ =>
      if isLowerCh c1 && isUpperCh c2 && isLowerCh c3 then
        some (3, [c1, ' ', c2, c3]) else none
  | _ => none

/-- `([a-z])(prep)([a-z])` with `re.IGNORECASE` → `\1 \2 \3`
(`[a-z]` matches any letter under IGNORECASE; the matched preposition
keeps its original case via the back-reference). -/
def mPrep (prep : List Char) : Matcher := fun _ l =>
  match l with
  | c1 :: rest =>
      if isLetterCh c1 && lowerChars (rest.take prep.length) = prep then
        match rest.drop prep.length with
        | c3 :: _ =>
            if isLetterCh c3 then
              some (1 + prep.length + 1, [c1, ' '] ++ rest.take prep.length ++ [' ', c3])
            else none
        | _ => none
      else none
  | _ => none

/-- the `common_preps` list from the source, in loop order. -/
def commonPreps : List (List Char) :=
  [['o','f'], ['t','o'], ['i','n'], ['o','n'], ['a','t'], ['b','y'],
   ['f','o','r'], ['f','r','o','m'], ['w','i','t','h'], ['t','h','e'], ['a','n','d']]

/-- `([a-z])([A-Z][a-z]{2,})` → `\1. \2` (greedy lowercase run of length ≥ 2). -/
def mMissedPeriod : Matcher := fun _ l =>
  match l with
  | c1 :: c2 :: r2 =>
      if isLowerCh c1 && isUpperCh c2 then
        let run := r2.takeWhile isLowerCh
        if 2 ≤ run.length then
          some (2 + run.length, [c1, '.', ' ', c2] ++ run)
        else none
      else none
  | _ => none

/-- `\s+` → `' '`. -/
def mWsCollapse : Matcher := fun _ l =>
  match l with
  | c :: _ =>
      if isPySpace c then some ((l.takeWhile isPySpace).length, [' ']) else none
  | _ => none

/-- `AdvancedTextCleaner.clean_concatenated_text`: the twelve `re.sub`
passes of advanced_cleaner.py lines 23-70, in source order (the
preposition step is one pass per preposition). -/
def clean_concatenated_text (text : String) : String :=
  if text = "" then "" else
  let t := text.toList
  let t := reSub mOcrG t
  let t := reSub mAtIon t
  let t := reSub mOnS t
  let t := reSub mCOn t
  let t := reSub mInForM t
  let t := reSub mToRSW t
  let t := reSub mLowerUpper t
  let t := reSub mLowerDigit t
  let t := reSub mDigitLetter t
  let t := reSub mLowerUpperLower t
  let t := commonPreps.foldl (fun acc p => reSub (mPrep p) acc) t
  let t := reSub mMissedPeriod t
  let t := reSub mWsCollapse t
  t.asString

/-!
`AdvancedTextCleaner.extract_meaningful_sentences` and
`clean_page_content` (advanced_cleaner.py lines 74-148).
-/

/-- sentence-ending characters of `re.split(r'[.!?]+', text)`. -/
def isSentEnd (c : Char) : Bool := c = '.' || c = '!' || c = '?'

/-- splitting loop for `re.split(r'[.!?]+', text)`: pieces between runs of
sentence enders, keeping empty boundary pieces (fuel = length + 1 suffices:
each round consumes the piece plus a nonempty delimiter run). -/
def splitSentGo : Nat → List Char → List (List Char)
  | 0, l => [l]
  | fuel + 1, l =>
      let piece := l.takeWhile fun c => !isSentEnd c
      let rest := l.drop piece.length
      match rest with
      | [] => [piece]
      | _ =>
          let run := rest.takeWhile isSentEnd
          piece :: splitSentGo fuel (rest.drop run.length)

/-- Python `re.split(r'[.!?]+', text)`. -/
def splitSentences (l : List Char) : List (List Char) := splitSentGo (l.length + 1) l

/-- vowels of the garbled-text check `re.search(r'[aeiouAEIOU]', sent)`. -/
def isVowel (c : Char) : Bool :=
  c = 'a' || c = 'e' || c = 'i' || c = 'o' || c = 'u' ||
  c = 'A' || c = 'E' || c = 'I' || c = 'O' || c = 'U'

/-- `AdvancedTextCleaner.extract_meaningful_sentences`: cleans the text
again, splits into sentences, and keeps those passing the quality filter
(length ≥ 15, digit ratio ≤ 0.6, special-char ratio ≤ 0.5, ≥ 3 words,
contains a vowel).  The float comparisons `digits/max(len,1) > 0.6` and
`special/max(len,1) > 0.5` are modelled exactly by cross-multiplication. -/
def extract_meaningful_sentences (text : String) : List String :=
  let t := (clean_concatenated_text text).toList
  (splitSentences t).filterMap fun s0 =>
    let sent := pyStripL s0
    if sent.length < 15 then none
    else if 3 * max sent.length 1 < 5 * (sent.filter isDigitCh).length then none
    else if max sent.length 1 <
        2 * (sent.filter fun c => !isWordChar c && !isPySpace c).length then none
    else if (pySplitL sent).length < 3 then none
    else if !sent.any isVowel then none
    else some (pyStripL sent).asString

/-- `https?://[^\s]+` → removed. -/
def mUrlHttp : Matcher := fun _ l =>
  if l.take 4 = ['h','t','t','p'] then
    let r := l.drop 4
    let base :=
      if r.take 4 = ['s',':','/','/'] then some 8
      else if r.take 3 = [':','/','/'] then some 7
      else none
    match base with
    | some b =>
        let tail := (l.drop b).takeWhile fun c => !isPySpace c
        if tail.isEmpty then none else some (b + tail.length, [])
    | none => none
  else none

/-- `www\.[^\s]+` → removed. -/
def mUrlWww : Matcher := fun _ l =>
  if l.take 4 = ['w','w','w','.'] then
    let tail := (l.drop 4).takeWhile fun c => !isPySpace c
    if tail.isEmpty then none else some (4 + tail.length, [])
  else none

/-- `Image\s*(?:Source|Courtesy)\s*:.*` with IGNORECASE → removed
(`.*` stops at a newline or the end of the text). -/
def mImageSrc : Matcher := fun _ l =>
  if lowerChars (l.take 5) = ['i','m','a','g','e'] then
    let r1 := l.drop 5
    let s1 := r1.takeWhile isPySpace
    let r2 := r1.drop s1.length
    let key :=
      if lowerChars (r2.take 6) = ['s','o','u','r','c','e'] then some 6
      else if lowerChars (r2.take 8) = ['c','o','u','r','t','e','s','y'] then some 8
      else none
    match key with
    | some klen =>
        let r3 := r2.drop klen
        let s2 := r3.takeWhile isPySpace
        match r3.drop s2.length with
        | ':' :: r4 =>
            let run := r4.takeWhile fun c => c ≠ '\n'
            some (5 + s1.length + klen + s2.length + 1 + run.length, [])
        | _ => none
    | none => none
  else none

/-- `Table\s*:.*` with IGNORECASE → removed. -/
def mTableRef : Matcher := fun _ l =>
  if lowerChars (l.take 5) = ['t','a','b','l','e'] then
    let r1 := l.drop 5
    let s1 := r1.takeWhile isPySpace
    match r1.drop s1.length with
    | ':' :: r2 =>
        let run := r2.takeWhile fun c => c ≠ '\n'
        some (5 + s1.length + 1 + run.length, [])
    | _ => none
  else none

/-- `Courtesy\s*:.*` with IGNORECASE → removed. -/
def mCourtesyRef : Matcher := fun _ l =>
  if lowerChars (l.take 8) = ['c','o','u','r','t','e','s','y'] then
    let r1 := l.drop 8
    let s1 := r1.takeWhile isPySpace
    match r1.drop s1.length with
    | ':' :: r2 =>
        let run := r2.takeWhile fun c => c ≠ '\n'
        some (8 + s1.length + 1 + run.length, [])
    | _ => none
  else none

/-- `\[\d+\]` → removed. -/
def mCiteNum : Matcher := fun _ l =>
  match l with
  | '[' :: r =>
      let ds := r.takeWhile isDigitCh
      if ds.isEmpty then none else
      match r.drop ds.length with
      | ']' :: _ => some (1 + ds.length + 1, [])
      | _ => none
  | _ => none

/-- the URL / image-source / table / citation removal passes of
`clean_page_content` followed by `clean_concatenated_text`. -/
def pageCleaned (text : String) : String :=
  let t := text.toList
  let t := reSub mUrlHttp t
  let t := reSub mUrlWww t
  let t := reSub mImageSrc t
  let t := reSub mTableRef t
  let t := reSub mCourtesyRef t
  let t := reSub mCiteNum t
  clean_concatenated_text t.asString

/-- `AdvancedTextCleaner.clean_page_content` (advanced_cleaner.py
lines 112-148). -/
def clean_page_content (text : String) : String :=
  if text = "" ∨ (pyStrip text).length < 50 then "" else
  let cleaned := pageCleaned text
  let words := pySplit cleaned
  if 20 < words.length then cleaned
  else
    let sentences := extract_meaningful_sentences cleaned
    if sentences = [] ∧ 5 < words.length then cleaned
    else String.intercalate "\n" sentences

/-!
Claims C7 and C8 (TextNormalizer / AdvancedTextCleaner).
-/

/-- C8 counterexample: `clean_concatenated_text` is not idempotent.  On
`"xtos"` one application yields `"x to s"` (the glued-preposition pass
splits around `to`), but a second application merges `"to s"` into the
literal `"tor"` via the `\bto\s+(r|s|w)\b` OCR repair, yielding
`"x tor"`. -/
theorem C8_clean_not_idempotent_cex :
    clean_concatenated_text "xtos" = "x to s" ∧
    clean_concatenated_text (clean_concatenated_text "xtos") = "x tor" ∧
    clean_concatenated_text (clean_concatenated_text "xtos") ≠ clean_concatenated_text "xtos" :=
  ⟨by decide, by decide, by decide⟩

/-- C8 (amended): `clean_concatenated_text` applied twice agrees with one
application on text the cleaner already leaves unchanged (its fixed
points, i.e. "already-clean text"); idempotence fails for general text. -/
theorem C8_clean_idempotent_on_fixed (t : String)
    (h : clean_concatenated_text t = t) :
    clean_concatenated_text (clean_concatenated_text t) = clean_concatenated_text t := by
  rw [h, h]

/-- C8 witness: `"hello"` is already clean, and a second application
changes nothing. -/
theorem C8_clean_idempotent_on_fixed_witness :
    clean_concatenated_text "hello" = "hello" ∧
    clean_concatenated_text (clean_concatenated_text "hello") = clean_concatenated_text "hello" :=
  ⟨by decide, C8_clean_idempotent_on_fixed "hello" (by decide)⟩

/-- C7 counterexample: on fifty copies of `'a'` (50 characters, so past
the 50-character usability gate) sentence filtering empties the result
and the cleaned text is nonempty, yet `clean_page_content` returns the
empty string instead of falling back to the unfiltered cleaned text,
because the cleaned text has only one word (≤ 5). -/
theorem C7_clean_page_cex :
    clean_page_content (String.mk (List.replicate 50 'a')) = "" ∧
    50 ≤ (pyStrip (String.mk (List.replicate 50 'a'))).length ∧
    extract_meaningful_sentences (pageCleaned (String.mk (List.replicate 50 'a'))) = [] ∧
    pageCleaned (String.mk (List.replicate 50 'a')) ≠ "" :=
  ⟨by decide, by decide, by decide, by decide⟩

/-- C7 (amended): `clean_page_content` is total (the embedding is a
function, modelling "never raises"); raw text of stripped length under 50
yields the empty string; otherwise the cleaned text is returned when it
has more than 20 words, the filtered sentences are returned when
filtering is applied and keeps something, and when filtering empties the
result the unfiltered cleaned text is returned only when it has more
than 5 words — with 5 or fewer words the result degrades to the empty
string. -/
theorem C7_clean_page_amended (t : String) :
    ((pyStrip t).length < 50 → clean_page_content t = "") ∧
    (50 ≤ (pyStrip t).length →
      (20 < (pySplit (pageCleaned t)).length → clean_page_content t = pageCleaned t) ∧
      (¬ 20 < (pySplit (pageCleaned t)).length →
        (extract_meaningful_sentences (pageCleaned t) ≠ [] →
          clean_page_content t =
            String.intercalate "\n" (extract_meaningful_sentences (pageCleaned t))) ∧
        (extract_meaningful_sentences (pageCleaned t) = [] →
          5 < (pySplit (pageCleaned t)).length → clean_page_content t = pageCleaned t) ∧
        (extract_meaningful_sentences (pageCleaned t) = [] →
          (pySplit (pageCleaned t)).length ≤ 5 → clean_page_content t = ""))) := by
  constructor
  · intro h
    simp only [clean_page_content]
    rw [if_pos (Or.inr h)]
  · intro h50
    have hcond : ¬ (t = "" ∨ (pyStrip t).length < 50) := by
      rintro (h1 | h2)
      · rw [h1] at h50
        exact absurd h50 (by decide)
      · omega
    constructor
    · intro hw
      simp only [clean_page_content]
      rw [if_neg hcond, if_pos hw]
    · intro hw
      refine ⟨?_, ?_, ?_⟩
      · intro hs
        simp only [clean_page_content]
        rw [if_neg hcond, if_neg hw, if_neg (by simp [hs])]
      · intro hs h5
        simp only [clean_page_content]
        rw [if_neg hcond, if_neg hw, if_pos ⟨hs, h5⟩]
      · intro hs h5
        simp only [clean_page_content]
        rw [if_neg hcond, if_neg hw, if_neg (by omega), hs]
        rfl

/-- C7 witness: a 21-word raw page (62 characters) passes the gate and is
returned cleaned without sentence filtering. -/
theorem C7_clean_page_amended_witness :
    50 ≤ (pyStrip "ab ab ab ab ab ab ab ab ab ab ab ab ab ab ab ab ab ab ab ab ab").length ∧
    20 < (pySplit (pageCleaned "ab ab ab ab ab ab ab ab ab ab ab ab ab ab ab ab ab ab ab ab ab")).length ∧
    clean_page_content "ab ab ab ab ab ab ab ab ab ab ab ab ab ab ab ab ab ab ab ab ab" =
      pageCleaned "ab ab ab ab ab ab ab ab ab ab ab ab ab ab ab ab ab ab ab ab ab" :=
  ⟨by decide, by decide,
    ((C7_clean_page_amended "ab ab ab ab ab ab ab ab ab ab ab ab ab ab ab ab ab ab ab ab ab").2
      (by decide)).1 (by decide)⟩

/-!
`difflib.SequenceMatcher(None, a, b)` from the Python standard library,
embedded in full: `b2j` with autojunk, the `find_longest_match` dynamic
programming (row-by-row chain lengths), the non-junk extension loops
(with `isjunk = None` the junk set is empty, so the two junk-adjacent
extension loops of the original never run and are omitted), and the
`get_matching_blocks` recursion summed into a total match count.
-/

namespace SeqMatch

/-- occurrence positions of `c` in `b` (difflib `b2j` before autojunk),
in ascending order. -/
def positions (b : List Char) (c : Char) : List Nat :=
  (List.range b.length).filter fun j => b.get? j = some c

/-- difflib `b2j` with autojunk: when `len(b) >= 200`, characters with
more than `len(b) // 100 + 1` occurrences are "popular" and dropped. -/
def b2j (b : List Char) (c : Char) : List Nat :=
  let ps := positions b c
  if 200 ≤ b.length ∧ b.length / 100 + 1 < ps.length then [] else ps

/-- one row of the `find_longest_match` dynamic programming: the new
`j2len` map (as a total function, absent keys giving 0).  Python's
`newj2len[j] = j2len.get(j-1, 0) + 1` for in-window `j` in `b2j[a[i]]`. -/
def chainNext (b : List Char) (blo bhi : Nat) (c : Char) (old : Nat → Nat) : Nat → Nat :=
  fun j =>
    if j ∈ b2j b c ∧ blo ≤ j ∧ j < bhi then
      (if j = 0 then 1 else old (j - 1) + 1)
    else 0

/-- the running best block `(besti, bestj, bestsize)`. -/
structure Best where
  bi : Nat
  bj : Nat
  bsize : Nat
deriving DecidableEq

/-- best-block update while scanning row `i`: positions `j` of `a[i]` in
`b` in ascending order, each strictly improving `k` recentering the best
block (out-of-window `j` have chain value 0 and never improve). -/
def rowUpd (i : Nat) (ch : Nat → Nat) (js : List Nat) (best : Best) : Best :=
  js.foldl (fun acc j =>
    let k := ch j
    if acc.bsize < k then ⟨i + 1 - k, j + 1 - k, k⟩ else acc) best

/-- the row loop of `find_longest_match` over rows `alo ≤ i < ahi`. -/
def dpGo (a b : List Char) (blo bhi : Nat) : List Nat → (Nat → Nat) → Best → Best
  | [], _, best => best
  | i :: is, ch, best =>
      let c := a.getD i ' '
      let ch2 := chainNext b blo bhi c ch
      dpGo a b blo bhi is ch2 (rowUpd i ch2 (b2j b c) best)

/-- the dynamic-programming part of `find_longest_match`. -/
def dpBest (a b : List Char) (alo ahi blo bhi : Nat) : Best :=
  dpGo a b blo bhi (List.range' alo (ahi - alo)) (fun _ => 0) ⟨alo, blo, 0⟩

/-- backward non-junk extension: while `besti > alo and bestj > blo and
a[besti-1] == b[bestj-1]` widen the block left (fuel `besti` suffices). -/
def extendBack (a b : List Char) (alo blo : Nat) : Nat → Best → Best
  | 0, best => best
  | fuel + 1, best =>
      if alo < best.bi ∧ blo < best.bj ∧
          a.getD (best.bi - 1) ' ' = b.getD (best.bj - 1) ' ' then
        extendBack a b alo blo fuel ⟨best.bi - 1, best.bj - 1, best.bsize + 1⟩
      else best

/-- forward non-junk extension: while `besti+bestsize < ahi and
bestj+bestsize < bhi and a[besti+bestsize] == b[bestj+bestsize]` widen
the block right (fuel `ahi` suffices). -/
def extendFwd (a b : List Char) (ahi bhi : Nat) : Nat → Best → Best
  | 0, best => best
  | fuel + 1, best =>
      if best.bi + best.bsize < ahi ∧ best.bj + best.bsize < bhi ∧
          a.getD (best.bi + best.bsize) ' ' = b.getD (best.bj + best.bsize) ' ' then
        extendFwd a b ahi bhi fuel ⟨best.bi, best.bj, best.bsize + 1⟩
      else best

/-- `find_longest_match(alo, ahi, blo, bhi)` with `isjunk = None`. -/
def flm (a b : List Char) (alo ahi blo bhi : Nat) : Best :=
  let d := dpBest a b alo ahi blo bhi
  let d := extendBack a b alo blo d.bi d
  extendFwd a b ahi bhi ahi d

/-- total size of all matching blocks found by the `get_matching_blocks`
region recursion (the fuel bounds the recursion depth; the initial fuel
`la + lb + 1` suffices since each found block shrinks a region). -/
def matchesFuel (a b : List Char) : Nat → Nat → Nat → Nat → Nat → Nat
  | 0, _, _, _, _ => 0
  | fuel + 1, alo, ahi, blo, bhi =>
      let r := flm a b alo ahi blo bhi
      if r.bsize = 0 then 0
      else r.bsize
        + (if alo < r.bi ∧ blo < r.bj then matchesFuel a b fuel alo r.bi blo r.bj else 0)
        + (if r.bi + r.bsize < ahi ∧ r.bj + r.bsize < bhi then
            matchesFuel a b fuel (r.bi + r.bsize) ahi (r.bj + r.bsize) bhi else 0)

/-- `sum(block.size for block in get_matching_blocks())`. -/
def totalMatches (a b : List Char) : Nat :=
  matchesFuel a b (a.length + b.length + 1) 0 a.length 0 b.length

/-- `SequenceMatcher.ratio() = 2.0 * matches / (len(a) + len(b))`, and
1.0 when both are empty; modelled exactly in `ℚ`. -/
def ratioQ (a b : List Char) : ℚ :=
  if a.length + b.length = 0 then 1
  else (2 * totalMatches a b : ℚ) / ((a.length + b.length : Nat) : ℚ)

end SeqMatch

/-!
`ContentDeduplicator` (src/modules/deduplicator.py) with the default
`similarity_threshold = 0.85`.
-/

/-- the filler words removed by `_normalize_text`. -/
def fillerWords : List (List Char) :=
  [['t','h','e'], ['a'], ['a','n'], ['a','n','d'], ['o','r'], ['b','u','t'],
   ['i','n'], ['o','n'], ['a','t'], ['t','o'], ['f','o','r']]

/-- `ContentDeduplicator._normalize_text`: lowercase, collapse whitespace,
strip punctuation other than periods (`[^\w\s.]`), drop filler words,
rejoin with single spaces. -/
def normalizeText (text : String) : String :=
  let t := lowerChars text.toList
  let t := reSub mWsCollapse t
  let t := t.filter fun c => isWordChar c || isPySpace c || c = '.'
  let ws := (pySplitL t).filter fun w => w ∉ fillerWords
  (joinSpace ws).asString

/-- `ContentDeduplicator.calculate_similarity`: the `SequenceMatcher`
ratio of the two normalized texts, as an exact rational. -/
def calculate_similarity (t1 t2 : String) : ℚ :=
  SeqMatch.ratioQ (normalizeText t1).toList (normalizeText t2).toList

/-- the comparison `calculate_similarity(text, seen) >= 0.85` in exact
integer form: `2M/(la+lb) ≥ 17/20  ⟺  17(la+lb) ≤ 40M` (and both sides
hold when `la + lb = 0`, where the ratio is defined as 1). -/
def simGE85 (t1 t2 : String) : Bool :=
  let a := (normalizeText t1).toList
  let b := (normalizeText t2).toList
  decide (17 * (a.length + b.length) ≤ 40 * SeqMatch.totalMatches a b)

/-- one iteration of the `deduplicate_list` loop; the state is
`(unique_texts, seen_normalized)` (`seen_normalized` is a Python set used
only for membership, modelled as the list of insertions). -/
def dedupStep (p : List String × List String) (t : String) : List String × List String :=
  if (pyStrip t).length < 10 then p
  else if normalizeText t ∈ p.2 then p
  else if p.1.any (fun u => simGE85 t u) then p
  else (p.1 ++ [t], p.2 ++ [normalizeText t])

/-- `ContentDeduplicator.deduplicate_list` (deduplicator.py lines 79-115). -/
def deduplicate_list (texts : List String) : List String :=
  (texts.foldl dedupStep ([], [])).1

/-- `texts[i]` is kept by `deduplicate_list`: processing it appends it to
the accepted list. -/
def KeptAt (texts : List String) (i : Nat) : Prop :=
  ((texts.take (i + 1)).foldl dedupStep ([], [])).1 =
    ((texts.take i).foldl dedupStep ([], [])).1 ++ [texts.getD i ""]

/-- `ContentDeduplicator.is_duplicate` (deduplicator.py lines 52-77): the
`seen_content` set field is modelled as explicit state (a list with
set-insertion); returns the result and the new state. -/
def is_duplicate (text : String) (reference_texts : Option (List String))
    (seen_content : List String) : Bool × List String :=
  if (pyStrip text).length < 10 then (true, seen_content)
  else
    let comparison_set := reference_texts.getD seen_content
    if comparison_set.any (fun u => simGE85 text u) then (true, seen_content)
    else (false, if text ∈ seen_content then seen_content else seen_content ++ [text])

namespace SeqMatch

/-!
`ratio(s, s) = 1`: on two equal sequences the dynamic programming plus
extension always produces the full diagonal block.  The argument: chain
values at `(row i, column j)` never exceed the diagonal chain value at
column `j` (for `j < i`, whose diagonal was scanned in an earlier row)
nor the diagonal chain value of the current row (for `j ≥ i`, scanned
earlier in the same row since position lists are ascending), so every
strict improvement of the running best lands on the diagonal; the
extension loops then widen a diagonal block to the whole window.
-/

/-- the chain function after the first `i` rows of the DP on `a = b = s`
with the full window `[0, n)`. -/
def chainF (s : List Char) (n : Nat) : Nat → Nat → Nat
  | 0 => fun _ => 0
  | i + 1 => chainNext s 0 n (s.getD i ' ') (chainF s n i)

theorem mem_positions {b : List Char} {c : Char} {j : Nat} :
    j ∈ positions b c ↔ j < b.length ∧ b.get? j = some c := by
  simp [positions, List.mem_filter, List.mem_range, and_comm]

theorem mem_of_mem_b2j {b : List Char} {c : Char} {j : Nat} (h : j ∈ b2j b c) :
    j < b.length ∧ b.get? j = some c := by
  have : j ∈ positions b c := by
    by_cases hp : 200 ≤ b.length ∧ b.length / 100 + 1 < (positions b c).length
    · simp [b2j, hp] at h
    · simpa [b2j, hp] using h
  exact mem_positions.1 this

theorem mem_b2j_closed {b : List Char} {c : Char} {j t : Nat} (h : j ∈ b2j b c)
    (ht : t < b.length) (hc : b.get? t = some c) : t ∈ b2j b c := by
  by_cases hp : 200 ≤ b.length ∧ b.length / 100 + 1 < (positions b c).length
  · simp [b2j, hp] at h
  · simp only [b2j, if_neg hp]
    exact mem_positions.2 ⟨ht, hc⟩

theorem getD_of_lt {s : List Char} {i : Nat} (h : i < s.length) :
    s.get? i = some (s.getD i ' ') := by
  simp [List.get?_eq_getElem?, List.getElem?_eq_getElem h, List.getD_eq_getElem?_getD]

/-- chain values after `i` rows are at most `i`. -/
theorem chainF_le_row (s : List Char) (n : Nat) : ∀ i j, chainF s n i j ≤ i := by
  intro i
  induction i with
  | zero => intro j; simp [chainF]
  | succ i ih =>
      intro j
      show chainNext s 0 n (s.getD i ' ') (chainF s n i) j ≤ i + 1
      unfold chainNext
      split
      · split
        · omega
        · have := ih (j - 1)
          omega
      · omega

/-- a positive chain value reveals membership and the matched character. -/
theorem chainF_pos (s : List Char) (n : Nat) {i j : Nat}
    (h : 0 < chainF s n (i + 1) j) :
    j ∈ b2j s (s.getD i ' ') ∧ j < n ∧
      (j = 0 ∧ chainF s n (i + 1) j = 1 ∨
       0 < j ∧ chainF s n (i + 1) j = chainF s n i (j - 1) + 1) := by
  have hh : chainF s n (i + 1) j = chainNext s 0 n (s.getD i ' ') (chainF s n i) j := rfl
  rw [hh] at h ⊢
  unfold chainNext at h ⊢
  by_cases hc : j ∈ b2j s (s.getD i ' ') ∧ 0 ≤ j ∧ j < n
  · refine ⟨hc.1, hc.2.2, ?_⟩
    rw [if_pos hc] at h ⊢
    by_cases hj : j = 0
    · left; simp [hj]
    · right; simp [hj]; omega
  · rw [if_neg hc] at h; omega

/-- the character at a column with positive chain value equals the row
character, so membership transfers between the two rows and columns. -/
theorem char_eq_of_mem_b2j {s : List Char} {c : Char} {j : Nat}
    (h : j ∈ b2j s c) : s.getD j ' ' = c := by
  obtain ⟨hlt, hget⟩ := mem_of_mem_b2j h
  have := getD_of_lt hlt
  rw [this] at hget
  exact Option.some.inj hget

/-- any chain value in row `i` is at most the diagonal chain value of its
own column (claim: `chainF (i+1) j ≤ chainF (j+1) j`). -/
theorem chainF_le_diag (s : List Char) (n : Nat) :
    ∀ j i, chainF s n (i + 1) j ≤ chainF s n (j + 1) j := by
  intro j
  induction j with
  | zero =>
      intro i
      rcases Nat.eq_zero_or_pos (chainF s n (i + 1) 0) with h | h
      · omega
      · obtain ⟨hmem, hlt, _⟩ := chainF_pos s n h
        have h0len : 0 < s.length := (mem_of_mem_b2j hmem).1
        have hchar : s.getD 0 ' ' = s.getD i ' ' := char_eq_of_mem_b2j hmem
        have h0 : (0 : Nat) ∈ b2j s (s.getD 0 ' ') := by
          rw [hchar]
          exact mem_b2j_closed hmem h0len (by rw [getD_of_lt h0len, hchar])
        have h1 : chainF s n (0 + 1) 0 = 1 := by
          show chainNext s 0 n (s.getD 0 ' ') (chainF s n 0) 0 = 1
          unfold chainNext
          rw [if_pos ⟨h0, by omega, by omega⟩]
          simp
        have h2 : chainF s n (i + 1) 0 ≤ 1 := by
          rcases chainF_pos s n h with ⟨_, _, h3 | h3⟩
          · omega
          · omega
        omega
  | succ j ih =>
      intro i
      rcases Nat.eq_zero_or_pos (chainF s n (i + 1) (j + 1)) with h | h
      · omega
      · obtain ⟨hmem, hlt, hval⟩ := chainF_pos s n h
        rcases hval with ⟨habs, _⟩ | ⟨_, hval⟩
        · omega
        · have hjlen : j + 1 < s.length := (mem_of_mem_b2j hmem).1
          have hchar : s.getD (j + 1) ' ' = s.getD i ' ' := char_eq_of_mem_b2j hmem
          have hmem2 : (j + 1) ∈ b2j s (s.getD (j + 1) ' ') := by
            rw [hchar]; exact hmem
          have hdiagval : chainF s n (j + 1 + 1) (j + 1) = chainF s n (j + 1) j + 1 := by
            show chainNext s 0 n (s.getD (j + 1) ' ') (chainF s n (j + 1)) (j + 1) =
              chainF s n (j + 1) j + 1
            unfold chainNext
            rw [if_pos ⟨hmem2, by omega, hlt⟩]
            simp
          have hprev : chainF s n i (j + 1 - 1) ≤ chainF s n (j + 1) j := by
            cases i with
            | zero => simp [chainF]
            | succ i0 => simpa using ih i0
          omega

/-- within one row, chain values to the right of the diagonal are at most
the diagonal chain value of that row (claim: `i ≤ j →
chainF (i+1) j ≤ chainF (i+1) i`). -/
theorem chainF_le_rowdiag (s : List Char) (n : Nat) :
    ∀ i j, i ≤ j → chainF s n (i + 1) j ≤ chainF s n (i + 1) i := by
  intro i
  induction i with
  | zero =>
      intro j _
      show chainF s n 1 j ≤ chainF s n 1 0
      rcases Nat.eq_zero_or_pos (chainF s n 1 j) with h | h
      · omega
      · have h' : 0 < chainF s n (0 + 1) j := h
        obtain ⟨hmem, hlt, hval⟩ := chainF_pos s n h'
        simp only [Nat.zero_add] at hval
        have h1 : chainF s n 1 j ≤ 1 := by
          rcases hval with ⟨_, h2⟩ | ⟨_, h2⟩
          · omega
          · have h3 : chainF s n 0 (j - 1) = 0 := rfl
            omega
        have hjlen : j < s.length := (mem_of_mem_b2j hmem).1
        have h0len : 0 < s.length := by omega
        have h0mem : (0 : Nat) ∈ b2j s (s.getD 0 ' ') :=
          mem_b2j_closed hmem h0len (getD_of_lt h0len)
        have h0n : 0 < n := by omega
        have hd : chainF s n 1 0 = 1 := by
          show chainNext s 0 n (s.getD 0 ' ') (chainF s n 0) 0 = 1
          unfold chainNext
          rw [if_pos ⟨h0mem, Nat.le_refl 0, h0n⟩]
          simp
        omega
  | succ i ih =>
      intro j hij
      rcases Nat.eq_zero_or_pos (chainF s n (i + 1 + 1) j) with h | h
      · omega
      · obtain ⟨hmem, hlt, hval⟩ := chainF_pos s n h
        rcases hval with ⟨hj0, _⟩ | ⟨hjpos, hval⟩
        · omega
        · have hilen : i + 1 < s.length := by
            have := (mem_of_mem_b2j hmem).1
            omega
          have himem : (i + 1) ∈ b2j s (s.getD (i + 1) ' ') :=
            mem_b2j_closed hmem hilen (getD_of_lt hilen)
          have hin : i + 1 < n := by omega
          have hd : chainF s n (i + 1 + 1) (i + 1) = chainF s n (i + 1) i + 1 := by
            show chainNext s 0 n (s.getD (i + 1) ' ') (chainF s n (i + 1)) (i + 1) =
              chainF s n (i + 1) i + 1
            unfold chainNext
            rw [if_pos ⟨himem, by omega, hin⟩]
            simp
          have hprev : chainF s n (i + 1) (j - 1) ≤ chainF s n (i + 1) i :=
            ih (j - 1) (by omega)
          omega

theorem b2j_sorted (b : List Char) (c : Char) : (b2j b c).Pairwise (· < ·) := by
  by_cases hp : 200 ≤ b.length ∧ b.length / 100 + 1 < (positions b c).length
  · simp [b2j, hp]
  · simp only [b2j, if_neg hp]
    exact (List.pairwise_lt_range _).filter _

theorem chainF_rowdiag_zero (s : List Char) (n i : Nat)
    (h : i ∉ b2j s (s.getD i ' ')) : chainF s n (i + 1) i = 0 := by
  show chainNext s 0 n (s.getD i ' ') (chainF s n i) i = 0
  unfold chainNext
  rw [if_neg (by tauto)]

/-- row invariant: scanning the ascending position list of the row
character never moves the best block off the diagonal, keeps it inside
the window, and ends with the best size dominating all diagonal chain
values up to and including this row. -/
theorem rowUpd_inv (s : List Char) (n i : Nat) (hin : i < n) :
    ∀ (js : List Nat) (best : Best),
      js.Pairwise (· < ·) →
      (∀ j ∈ js, j ∈ b2j s (s.getD i ' ')) →
      best.bi = best.bj →
      best.bi + best.bsize ≤ n →
      (∀ t, t < i → chainF s n (t + 1) t ≤ best.bsize) →
      (i ∈ js ∨ chainF s n (i + 1) i ≤ best.bsize) →
      (rowUpd i (chainF s n (i + 1)) js best).bi =
          (rowUpd i (chainF s n (i + 1)) js best).bj ∧
        (rowUpd i (chainF s n (i + 1)) js best).bi +
          (rowUpd i (chainF s n (i + 1)) js best).bsize ≤ n ∧
        (∀ t, t < i + 1 → chainF s n (t + 1) t ≤ (rowUpd i (chainF s n (i + 1)) js best).bsize) := by
  intro js
  induction js with
  | nil =>
      intro best _ _ hdiag hsum hmax hitr
      refine ⟨hdiag, hsum, ?_⟩
      intro t ht
      rcases Nat.lt_succ_iff_lt_or_eq.1 ht with h | h
      · exact hmax t h
      · subst h
        rcases hitr with h | h
        · exact absurd h (List.not_mem_nil _)
        · exact h
  | cons j0 js ih =>
      intro best hpair hmem hdiag hsum hmax hitr
      have hstep : rowUpd i (chainF s n (i + 1)) (j0 :: js) best =
          rowUpd i (chainF s n (i + 1)) js
            (if best.bsize < chainF s n (i + 1) j0 then
              ⟨i + 1 - chainF s n (i + 1) j0, j0 + 1 - chainF s n (i + 1) j0,
                chainF s n (i + 1) j0⟩
            else best) := by
        simp [rowUpd]
      rw [hstep]
      by_cases hup : best.bsize < chainF s n (i + 1) j0
      · rw [if_pos hup]
        rcases Nat.lt_trichotomy j0 i with hj | hj | hj
        · -- an earlier column: its chain value is dominated by its own
          -- diagonal, already below the best size
          have h1 : chainF s n (i + 1) j0 ≤ chainF s n (j0 + 1) j0 :=
            chainF_le_diag s n j0 i
          have h2 : chainF s n (j0 + 1) j0 ≤ best.bsize := hmax j0 hj
          omega
        · -- the diagonal column: recenter on the diagonal
          subst hj
          have hk : chainF s n (j0 + 1) j0 ≤ j0 + 1 := chainF_le_row s n (j0 + 1) j0
          have hjn : j0 + 1 ≤ n := hin
          refine ih _ hpair.of_cons (fun j hj => hmem j (List.mem_cons_of_mem _ hj))
            rfl (by simp; omega) (fun t ht => ?_) (Or.inr (by simp))
          have := hmax t ht
          simp
          omega
        · -- a later column in the same row: the diagonal of this row was
          -- scanned first, so the best size already dominates
          have hi : i ∈ j0 :: js ∨ chainF s n (i + 1) i ≤ best.bsize := hitr
          have hnotin : i ∉ j0 :: js := by
            intro hmem2
            rcases List.mem_cons.1 hmem2 with h | h
            · omega
            · have := (List.pairwise_cons.1 hpair).1 i h
              omega
          have hle : chainF s n (i + 1) i ≤ best.bsize := by
            rcases hi with h | h
            · exact absurd h hnotin
            · exact h
          have h1 : chainF s n (i + 1) j0 ≤ chainF s n (i + 1) i :=
            chainF_le_rowdiag s n i j0 (by omega)
          omega
      · rw [if_neg hup]
        refine ih _ hpair.of_cons (fun j hj => hmem j (List.mem_cons_of_mem _ hj))
          hdiag hsum hmax ?_
        rcases hitr with h | h
        · rcases List.mem_cons.1 h with h2 | h2
          · subst h2
            exact Or.inr (by omega)
          · exact Or.inl h2
        · exact Or.inr h

/-- DP invariant over the remaining rows: the best block stays diagonal
and inside the window. -/
theorem dpGo_inv (s : List Char) (n : Nat) :
    ∀ (m i : Nat) (best : Best),
      i + m ≤ n →
      best.bi = best.bj →
      best.bi + best.bsize ≤ n →
      (∀ t, t < i → chainF s n (t + 1) t ≤ best.bsize) →
      (dpGo s s 0 n (List.range' i m) (chainF s n i) best).bi =
          (dpGo s s 0 n (List.range' i m) (chainF s n i) best).bj ∧
        (dpGo s s 0 n (List.range' i m) (chainF s n i) best).bi +
          (dpGo s s 0 n (List.range' i m) (chainF s n i) best).bsize ≤ n := by
  intro m
  induction m with
  | zero =>
      intro i best _ hdiag hsum _
      simp only [List.range']
      exact ⟨hdiag, hsum⟩
  | succ m ih =>
      intro i best hm hdiag hsum hmax
      rw [List.range'_succ]
      have hin : i < n := by omega
      have hstep : dpGo s s 0 n (i :: List.range' (i + 1) m) (chainF s n i) best =
          dpGo s s 0 n (List.range' (i + 1) m) (chainF s n (i + 1))
            (rowUpd i (chainF s n (i + 1)) (b2j s (s.getD i ' ')) best) := rfl
      rw [hstep]
      have hitr : i ∈ b2j s (s.getD i ' ') ∨ chainF s n (i + 1) i ≤ best.bsize := by
        by_cases hmem : i ∈ b2j s (s.getD i ' ')
        · exact Or.inl hmem
        · exact Or.inr (by rw [chainF_rowdiag_zero s n i hmem]; omega)
      obtain ⟨h1, h2, h3⟩ := rowUpd_inv s n i hin (b2j s (s.getD i ' ')) best
        (b2j_sorted s (s.getD i ' ')) (fun _ h => h) hdiag hsum hmax hitr
      exact ih (i + 1) _ (by omega) h1 h2 h3

theorem extendBack_diag (s : List Char) :
    ∀ (bi bs : Nat), extendBack s s 0 0 bi ⟨bi, bi, bs⟩ = ⟨0, 0, bs + bi⟩ := by
  intro bi
  induction bi with
  | zero => intro bs; rfl
  | succ bi ih =>
      intro bs
      show extendBack s s 0 0 (bi + 1) ⟨bi + 1, bi + 1, bs⟩ = ⟨0, 0, bs + (bi + 1)⟩
      rw [extendBack]
      rw [if_pos ⟨by simp, by simp, rfl⟩]
      have h2 : (⟨bi + 1 - 1, bi + 1 - 1, bs + 1⟩ : Best) = ⟨bi, bi, bs + 1⟩ := by
        simp
      rw [h2, ih (bs + 1)]
      congr 1
      omega

theorem extendFwd_diag (s : List Char) (n : Nat) (hn : n = s.length) :
    ∀ (fuel k : Nat), n ≤ k + fuel → k ≤ n →
      extendFwd s s n n fuel ⟨0, 0, k⟩ = ⟨0, 0, n⟩ := by
  intro fuel
  induction fuel with
  | zero =>
      intro k h1 h2
      have : k = n := by omega
      subst this
      rfl
  | succ fuel ih =>
      intro k h1 h2
      by_cases hk : k < n
      · rw [extendFwd]
        rw [if_pos ⟨by simp; omega, by simp; omega, rfl⟩]
        exact ih (k + 1) (by omega) (by omega)
      · rw [extendFwd]
        rw [if_neg (by simp; omega)]
        have : k = n := by omega
        rw [this]

/-- on equal sequences `find_longest_match` over the full window returns
the whole diagonal. -/
theorem flm_self (s : List Char) :
    flm s s 0 s.length 0 s.length = ⟨0, 0, s.length⟩ := by
  have hdp := dpGo_inv s s.length s.length 0 ⟨0, 0, 0⟩ (by omega) rfl (by simp)
    (by intro t ht; omega)
  have hbest : dpBest s s 0 s.length 0 s.length =
      dpGo s s 0 s.length (List.range' 0 s.length) (chainF s s.length 0) ⟨0, 0, 0⟩ := by
    simp only [dpBest, Nat.sub_zero]
    rfl
  unfold flm
  rw [hbest]
  set d := dpGo s s 0 s.length (List.range' 0 s.length) (chainF s s.length 0) ⟨0, 0, 0⟩ with hd
  obtain ⟨hdiag, hsum⟩ := hdp
  have hdeq : d = ⟨d.bi, d.bi, d.bsize⟩ := by
    nth_rewrite 1 [show d = ⟨d.bi, d.bj, d.bsize⟩ from rfl]
    rw [← hdiag]
  rw [hdeq]
  show extendFwd s s s.length s.length s.length
      (extendBack s s 0 0 (Best.bi ⟨d.bi, d.bi, d.bsize⟩) ⟨d.bi, d.bi, d.bsize⟩) = _
  have hback : extendBack s s 0 0 (Best.bi ⟨d.bi, d.bi, d.bsize⟩) ⟨d.bi, d.bi, d.bsize⟩ =
      ⟨0, 0, d.bsize + d.bi⟩ := extendBack_diag s d.bi d.bsize
  rw [hback]
  exact extendFwd_diag s s.length rfl s.length (d.bsize + d.bi) (by omega) (by omega)

theorem totalMatches_self (s : List Char) : totalMatches s s = s.length := by
  unfold totalMatches
  rw [matchesFuel]
  rw [flm_self]
  rcases Nat.eq_zero_or_pos s.length with h | h
  · simp [h]
  · simp [h.ne']

theorem ratioQ_self (s : List Char) : ratioQ s s = 1 := by
  unfold ratioQ
  rcases Nat.eq_zero_or_pos (s.length + s.length) with h | h
  · rw [if_pos h]
  · rw [if_neg (by omega), totalMatches_self]
    have hne : ((s.length + s.length : Nat) : ℚ) ≠ 0 := Nat.cast_ne_zero.2 (by omega)
    rw [div_eq_one_iff_eq hne]
    push_cast
    ring

end SeqMatch

/-- the integer comparison of `simGE85` agrees exactly with the rational
`0.85 ≤ ratio` comparison of the source. -/
theorem simGE85_iff (t1 t2 : String) :
    simGE85 t1 t2 = true ↔ (17 : ℚ) / 20 ≤ calculate_similarity t1 t2 := by
  unfold simGE85 calculate_similarity SeqMatch.ratioQ
  rcases Nat.eq_zero_or_pos
      ((normalizeText t1).toList.length + (normalizeText t2).toList.length) with h | h
  · rw [if_pos h]
    simp only [decide_eq_true_iff]
    constructor
    · intro _; norm_num
    · intro _; omega
  · rw [if_neg (by omega)]
    simp only [decide_eq_true_iff]
    have hL : (0 : ℚ) <
        (((normalizeText t1).toList.length + (normalizeText t2).toList.length : Nat) : ℚ) :=
      by exact_mod_cast h
    rw [div_le_div_iff₀ (by norm_num) hL]
    constructor
    · intro hn
      have hq : ((17 * ((normalizeText t1).toList.length + (normalizeText t2).toList.length) : Nat) : ℚ) ≤
          ((40 * SeqMatch.totalMatches (normalizeText t1).toList (normalizeText t2).toList : Nat) : ℚ) :=
        Nat.cast_le.2 hn
      push_cast at hq ⊢
      linarith
    · intro hq
      have hq2 : ((17 * ((normalizeText t1).toList.length + (normalizeText t2).toList.length) : Nat) : ℚ) ≤
          ((40 * SeqMatch.totalMatches (normalizeText t1).toList (normalizeText t2).toList : Nat) : ℚ) := by
        push_cast at hq ⊢
        linarith
      exact_mod_cast hq2

/-- texts with equal normalizations have similarity exactly 1. -/
theorem calculate_similarity_self {t u : String} (h : normalizeText u = normalizeText t) :
    calculate_similarity t u = 1 := by
  unfold calculate_similarity
  rw [h]
  exact SeqMatch.ratioQ_self _

theorem simGE85_of_norm_eq {t u : String} (h : normalizeText u = normalizeText t) :
    simGE85 t u = true := by
  rw [simGE85_iff, calculate_similarity_self h]
  norm_num

theorem sim_lt_of_simGE85_false {t u : String} (h : simGE85 t u = false) :
    calculate_similarity t u < 17 / 20 := by
  by_contra hc
  rw [(simGE85_iff t u).2 (not_lt.1 hc)] at h
  simp at h

/-- generic form of `getD_of_lt` for arbitrary element types. -/
theorem getElem?_eq_some_getD {α : Type} {l : List α} {j : Nat} (h : j < l.length) (d : α) :
    l[j]? = some (l.getD j d) := by
  simp [List.getElem?_eq_getElem h, List.getD_eq_getElem?_getD]

/-- accepted texts are never removed by later steps. -/
theorem dedup_foldl_mem {u : String} :
    ∀ (l : List String) (p : List String × List String),
      u ∈ p.1 → u ∈ (l.foldl dedupStep p).1 := by
  intro l
  induction l with
  | nil => intro p h; exact h
  | cons t ts ih =>
      intro p h
      rw [List.foldl_cons]
      apply ih
      unfold dedupStep
      split
      · exact h
      · split
        · exact h
        · split
          · exact h
          · exact List.mem_append_left _ h

/-- `seen_normalized` is exactly the normalizations of the accepted texts. -/
theorem dedup_seen_inv :
    ∀ (l : List String) (p : List String × List String),
      p.2 = p.1.map normalizeText →
      (l.foldl dedupStep p).2 = (l.foldl dedupStep p).1.map normalizeText := by
  intro l
  induction l with
  | nil => intro p h; exact h
  | cons t ts ih =>
      intro p h
      rw [List.foldl_cons]
      apply ih
      unfold dedupStep
      split
      · exact h
      · split
        · exact h
        · split
          · exact h
          · simp [h]

/-- the accepted list is a subsequence of the processed input. -/
theorem dedup_sublist_aux :
    ∀ (l : List String) (p : List String × List String) (front : List String),
      p.1.Sublist front → ((l.foldl dedupStep p).1).Sublist (front ++ l) := by
  intro l
  induction l with
  | nil => intro p front h; simpa using h
  | cons t ts ih =>
      intro p front h
      rw [List.foldl_cons]
      have hassoc : front ++ t :: ts = (front ++ [t]) ++ ts := by simp
      rw [hassoc]
      apply ih
      unfold dedupStep
      split
      · exact h.trans (List.sublist_append_left front [t])
      · split
        · exact h.trans (List.sublist_append_left front [t])
        · split
          · exact h.trans (List.sublist_append_left front [t])
          · exact h.append (List.Sublist.refl [t])

/-- every accepted text has stripped length at least 10. -/
theorem dedup_minlen :
    ∀ (l : List String) (p : List String × List String),
      (∀ u ∈ p.1, 10 ≤ (pyStrip u).length) →
      ∀ u ∈ (l.foldl dedupStep p).1, 10 ≤ (pyStrip u).length := by
  intro l
  induction l with
  | nil => intro p h; exact h
  | cons t ts ih =>
      intro p h
      rw [List.foldl_cons]
      apply ih
      unfold dedupStep
      split
      · exact h
      · split
        · exact h
        · split
          · exact h
          · intro u hu
            rcases List.mem_append.1 hu with h2 | h2
            · exact h u h2
            · rw [List.mem_singleton.1 h2]
              omega

/-- accepted texts are pairwise below the similarity threshold (each
later acceptance was compared against every earlier one). -/
theorem dedup_pairwise :
    ∀ (l : List String) (p : List String × List String),
      p.1.Pairwise (fun u v => calculate_similarity v u < 17 / 20) →
      ((l.foldl dedupStep p).1).Pairwise (fun u v => calculate_similarity v u < 17 / 20) := by
  intro l
  induction l with
  | nil => intro p h; exact h
  | cons t ts ih =>
      intro p h
      rw [List.foldl_cons]
      apply ih
      unfold dedupStep
      split
      · exact h
      · split
        · exact h
        · split
          · exact h
          · rename_i hshort hseen hany
            rw [List.pairwise_append]
            refine ⟨h, List.pairwise_singleton _ _, ?_⟩
            intro a ha b hb
            rw [List.mem_singleton.1 hb]
            apply sim_lt_of_simGE85_false
            by_contra hc
            exact hany (List.any_eq_true.2 ⟨a, ha, by
              cases hb2 : simGE85 t a
              · exact absurd hb2 hc
              · rfl⟩)

/-- the state after one more input is one `dedupStep`. -/
theorem dedup_take_succ (texts : List String) (i : Nat) (hi : i < texts.length) :
    (texts.take (i + 1)).foldl dedupStep ([], []) =
      dedupStep ((texts.take i).foldl dedupStep ([], [])) (texts.getD i "") := by
  rw [List.take_succ, getElem?_eq_some_getD hi ""]
  simp [List.foldl_append]

/-- C1 helper: a later input that is ≥ 0.85-similar to an earlier kept
input is never kept. -/
theorem dedup_at_most_one (texts : List String) (i j : Nat) (hij : i < j)
    (hj : j < texts.length)
    (hsim : (17 : ℚ) / 20 ≤ calculate_similarity (texts.getD j "") (texts.getD i ""))
    (hki : KeptAt texts i) : ¬ KeptAt texts j := by
  have hki2 : ((texts.take (i + 1)).foldl dedupStep ([], [])).1 =
      ((texts.take i).foldl dedupStep ([], [])).1 ++ [texts.getD i ""] := hki
  have hmemi : texts.getD i "" ∈ ((texts.take (i + 1)).foldl dedupStep ([], [])).1 := by
    rw [hki2]
    exact List.mem_append_right _ (List.mem_singleton.2 rfl)
  have hdecomp : texts.take j = texts.take (i + 1) ++ (texts.drop (i + 1)).take (j - (i + 1)) := by
    rw [← List.take_add]
    congr 1
    omega
  have hmemj : texts.getD i "" ∈ ((texts.take j).foldl dedupStep ([], [])).1 := by
    rw [hdecomp, List.foldl_append]
    exact dedup_foldl_mem _ _ hmemi
  intro hkj
  have hkj2 : ((texts.take (j + 1)).foldl dedupStep ([], [])).1 =
      ((texts.take j).foldl dedupStep ([], [])).1 ++ [texts.getD j ""] := hkj
  rw [dedup_take_succ texts j hj] at hkj2
  set pj := (texts.take j).foldl dedupStep ([], []) with hpj
  have hstep : dedupStep pj (texts.getD j "") = pj := by
    unfold dedupStep
    split
    · rfl
    · split
      · rfl
      · split
        · rfl
        · rename_i hany
          have hb : simGE85 (texts.getD j "") (texts.getD i "") = true := by
            cases hb2 : simGE85 (texts.getD j "") (texts.getD i "")
            · have := sim_lt_of_simGE85_false hb2
              linarith
            · rfl
          exact absurd (List.any_eq_true.2 ⟨texts.getD i "", hmemj, hb⟩) hany
  rw [hstep] at hkj2
  have := congrArg (fun l => l.length) hkj2
  simp at this

/-- C1 helper: an input of stripped length ≥ 10 that stays below the
threshold against all previously kept texts is kept. -/
theorem dedup_survivor_kept (texts : List String) (i : Nat) (hi : i < texts.length)
    (hlen : 10 ≤ (pyStrip (texts.getD i "")).length)
    (hsim : ∀ u ∈ ((texts.take i).foldl dedupStep ([], [])).1,
      calculate_similarity (texts.getD i "") u < 17 / 20) :
    KeptAt texts i ∧ texts.getD i "" ∈ deduplicate_list texts := by
  set pi := (texts.take i).foldl dedupStep ([], []) with hpi
  have hseen : pi.2 = pi.1.map normalizeText := dedup_seen_inv _ _ rfl
  have hnotseen : normalizeText (texts.getD i "") ∉ pi.2 := by
    rw [hseen]
    intro hmem
    obtain ⟨u, hu, hnorm⟩ := List.mem_map.1 hmem
    have h1 : calculate_similarity (texts.getD i "") u = 1 := calculate_similarity_self hnorm
    have := hsim u hu
    rw [h1] at this
    norm_num at this
  have hnotany : ¬ pi.1.any (fun u => simGE85 (texts.getD i "") u) = true := by
    intro hany
    obtain ⟨u, hu, hb⟩ := List.any_eq_true.1 hany
    have := (simGE85_iff _ _).1 hb
    have h2 := hsim u hu
    linarith
  have hkept : KeptAt texts i := by
    unfold KeptAt
    rw [dedup_take_succ texts i hi, ← hpi]
    unfold dedupStep
    rw [if_neg (by omega), if_neg hnotseen, if_neg hnotany]
  refine ⟨hkept, ?_⟩
  have hkept2 : ((texts.take (i + 1)).foldl dedupStep ([], [])).1 =
      ((texts.take i).foldl dedupStep ([], [])).1 ++ [texts.getD i ""] := hkept
  have hmem : texts.getD i "" ∈ ((texts.take (i + 1)).foldl dedupStep ([], [])).1 := by
    rw [hkept2]
    exact List.mem_append_right _ (List.mem_singleton.2 rfl)
  have hfull : deduplicate_list texts =
      ((texts.drop (i + 1)).foldl dedupStep ((texts.take (i + 1)).foldl dedupStep ([], []))).1 := by
    unfold deduplicate_list
    conv_lhs => rw [← List.take_append_drop (i + 1) texts]
    rw [List.foldl_append]
  rw [hfull]
  exact dedup_foldl_mem _ _ hmem

/-- C1 counterexample: three pairwise ≥ 0.85-similar strings of length
≥ 10; `deduplicate_list` keeps only the first, so for the pair formed by
the second and third strings (similarity 34/35 ≥ 0.85) it keeps *zero*
of them, refuting "keeps exactly one of them (the first occurrence)" —
similarity is not transitive, so a chain collapses onto its head. -/
theorem C1_dedup_cex :
    deduplicate_list ["abcdefghijklmnop", "abcdefghijklmnopq", "abcdefghijklmnopqr"] =
      ["abcdefghijklmnop"] ∧
    (17 : ℚ) / 20 ≤ calculate_similarity "abcdefghijklmnopqr" "abcdefghijklmnopq" ∧
    10 ≤ (pyStrip "abcdefghijklmnopq").length ∧
    10 ≤ (pyStrip "abcdefghijklmnopqr").length ∧
    "abcdefghijklmnopq" ∉
      deduplicate_list ["abcdefghijklmnop", "abcdefghijklmnopq", "abcdefghijklmnopqr"] ∧
    "abcdefghijklmnopqr" ∉
      deduplicate_list ["abcdefghijklmnop", "abcdefghijklmnopq", "abcdefghijklmnopqr"] :=
  ⟨by decide, (simGE85_iff _ _).1 (by decide), by decide, by decide, by decide, by decide⟩

/-- C1 (amended): `deduplicate_list` returns an order-preserving
subsequence, discards all texts of stripped length under 10, keeps texts
pairwise below the 0.85 normalized-similarity threshold, keeps *at most
one* of any two inputs whose similarity is ≥ 0.85 when the earlier one
is kept (not always "exactly one": a chain of similar texts collapses
onto its head, dropping later pairs entirely), and keeps every input of
stripped length ≥ 10 whose similarity to all previously kept texts is
below 0.85. -/
theorem C1_deduplicate_list_amended (texts : List String) :
    (deduplicate_list texts).Sublist texts ∧
    (∀ u ∈ deduplicate_list texts, 10 ≤ (pyStrip u).length) ∧
    (deduplicate_list texts).Pairwise
      (fun u v => calculate_similarity v u < 17 / 20) ∧
    (∀ i j, i < j → j < texts.length →
      (17 : ℚ) / 20 ≤ calculate_similarity (texts.getD j "") (texts.getD i "") →
      KeptAt texts i → ¬ KeptAt texts j) ∧
    (∀ i, i < texts.length → 10 ≤ (pyStrip (texts.getD i "")).length →
      (∀ u ∈ ((texts.take i).foldl dedupStep ([], [])).1,
        calculate_similarity (texts.getD i "") u < 17 / 20) →
      KeptAt texts i ∧ texts.getD i "" ∈ deduplicate_list texts) :=
  ⟨by simpa using dedup_sublist_aux texts ([], []) [] (List.Sublist.refl []),
   dedup_minlen texts ([], []) (by intro u hu; exact absurd hu (List.not_mem_nil u)),
   dedup_pairwise texts ([], []) List.Pairwise.nil,
   fun i j hij hj hsim hki => dedup_at_most_one texts i j hij hj hsim hki,
   fun i hi hlen hsim => dedup_survivor_kept texts i hi hlen hsim⟩

/-- C1 witness: with one kept dissimilar predecessor, a long-enough text
below the threshold against it is kept. -/
theorem C1_deduplicate_list_amended_witness :
    KeptAt ["abcdefghijk", "zyxwvutsrqp"] 1 ∧
    (["abcdefghijk", "zyxwvutsrqp"].getD 1 "") ∈
      deduplicate_list ["abcdefghijk", "zyxwvutsrqp"] :=
  (C1_deduplicate_list_amended ["abcdefghijk", "zyxwvutsrqp"]).2.2.2.2 1 (by decide)
    (by decide)
    (by
      intro u hu
      have hstate : (((["abcdefghijk", "zyxwvutsrqp"] : List String).take 1).foldl
          dedupStep ([], [])).1 = ["abcdefghijk"] := by decide
      rw [hstate] at hu
      rw [List.mem_singleton.1 hu]
      exact sim_lt_of_simGE85_false (by decide))

/-- C10: `is_duplicate` with an explicit reference list still adds the
text to `seen_content` whenever it returns `False` (the comparison used
only the references), and a second call without a reference list on the
resulting state then reports the same text as a duplicate, with no
further state change. -/
theorem C10_is_duplicate_frame (text : String) (refs seen : List String)
    (h : (is_duplicate text (some refs) seen).1 = false) :
    text ∈ (is_duplicate text (some refs) seen).2 ∧
    is_duplicate text none (is_duplicate text (some refs) seen).2 =
      (true, (is_duplicate text (some refs) seen).2) := by
  by_cases hshort : (pyStrip text).length < 10
  · have hct : is_duplicate text (some refs) seen = (true, seen) := by
      unfold is_duplicate
      rw [if_pos hshort]
    rw [hct] at h
    simp at h
  by_cases hany : refs.any (fun u => simGE85 text u) = true
  · have hct : is_duplicate text (some refs) seen = (true, seen) := by
      unfold is_duplicate
      rw [if_neg hshort]
      simp only [Option.getD_some]
      rw [if_pos hany]
    rw [hct] at h
    simp at h
  have hres : is_duplicate text (some refs) seen =
      (false, if text ∈ seen then seen else seen ++ [text]) := by
    unfold is_duplicate
    rw [if_neg hshort]
    simp only [Option.getD_some]
    rw [if_neg hany]
  rw [hres]
  have hmem : text ∈ (if text ∈ seen then seen else seen ++ [text]) := by
    split
    · assumption
    · exact List.mem_append_right _ (List.mem_singleton.2 rfl)
  refine ⟨hmem, ?_⟩
  unfold is_duplicate
  rw [if_neg hshort]
  simp only [Option.getD_none]
  rw [if_pos (List.any_eq_true.2 ⟨text, hmem, simGE85_of_norm_eq rfl⟩)]

/-- C10 witness: a fresh text checked against an empty reference list is
recorded, and is then reported as a duplicate without references. -/
theorem C10_is_duplicate_frame_witness :
    "abcdefghijk" ∈ (is_duplicate "abcdefghijk" (some []) []).2 ∧
    is_duplicate "abcdefghijk" none (is_duplicate "abcdefghijk" (some []) []).2 =
      (true, (is_duplicate "abcdefghijk" (some []) []).2) :=
  C10_is_duplicate_frame "abcdefghijk" [] [] (by decide)

/-!
`SentenceRanker` (src/modules/sentence_ranker.py).  The scoring methods
(`_textrank_scores` via networkx+sklearn, `_tfidf_scores` via sklearn,
`_position_scores`, and their `_combined_scores` fusion) produce a numpy
float vector; the claims about `get_top_sentences` hold "regardless of
the ranking scores", so the per-index score vector is modelled as an
explicitly passed function `scores : Nat → ℚ` (the `method` argument
only selects which such vector is computed).  Python's `list.sort` is
stable; `mergeSort` with a `≤`-style comparator is the same stable sort.
-/

/-- `SentenceRanker.rank_sentences`: `(index, score, sentence)` triples
sorted by score descending, ties kept in original order. -/
def rank_sentences (scores : Nat → ℚ) (sentences : List String) :
    List (Nat × ℚ × String) :=
  if sentences.isEmpty then [] else
  let ranked := (List.range sentences.length).map
    fun i => (i, scores i, sentences.getD i "")
  ranked.mergeSort fun x y => decide (y.2.1 ≤ x.2.1)

/-- `SentenceRanker.get_top_sentences`: rank, take the top `top_n`
(default `max(3, int(len * top_percent))`), re-sort the selected indices
ascending, and return those sentences in original order. -/
def get_top_sentences (scores : Nat → ℚ) (sentences : List String)
    (top_n : Option Nat) (top_percent : ℚ := 3 / 10) : List String :=
  if sentences.isEmpty then [] else
  let ranked := rank_sentences scores sentences
  let n := top_n.getD (max 3 (⌊(sentences.length : ℚ) * top_percent⌋).toNat)
  let top_indices := ((ranked.take n).map fun x => x.1).mergeSort fun a b => decide (a ≤ b)
  top_indices.map fun i => sentences.getD i ""

/-!
`Summarizer` (src/modules/summarizer.py), built on the ranker with
`method='combined'`; the score vector is the same explicit parameter.
`int(total_sentences * summary_ratio)` is evaluated in IEEE-754 double
precision exactly as CPython does: the int is converted to a double
(exact below `2^53`), multiplied by the double nearest the source
literal (`0.7 = 6305039478318694/2^53`, `0.6 = 5404319552844595/2^53`)
with round-to-nearest-ties-to-even, and truncated towards zero.  This
differs from the exact-rational floor at, e.g., `n = 90`
(`int(90 * 0.7) = 62`, not `63`).  Conversion overflow (`n ≥ 2^1024`
raises `OverflowError` in Python) is outside the range the theorems
speak about.
-/

/-- binary length recursion (the fuel bounds the recursion depth; `n`
itself always suffices). -/
def bitLenGo : Nat → Nat → Nat
  | 0, _ => 0
  | fuel + 1, n => if n = 0 then 0 else bitLenGo fuel (n / 2) + 1

/-- number of binary digits of `n` (0 for 0). -/
def bitLen (n : Nat) : Nat := bitLenGo n n

/-- round a natural number to 53 significant bits (IEEE-754 binary64
round-to-nearest, ties to even). -/
def roundSig53 (q : Nat) : Nat :=
  if q < 2 ^ 53 then q
  else
    let s := bitLen q - 53
    let m := q / 2 ^ s
    let r := q % 2 ^ s
    (if 2 ^ s < 2 * r ∨ (2 * r = 2 ^ s ∧ m % 2 = 1) then m + 1 else m) * 2 ^ s

/-- the value of Python `float(n)` for a nonnegative int (exact below
`2^53`, rounded to 53 significant bits above; every double of this
magnitude is an integer). -/
def floatOfNat (n : Nat) : Nat := roundSig53 n

/-- numerator over `2^53` of the double nearest the literal `0.7`. -/
def double07 : Nat := 6305039478318694

/-- numerator over `2^53` of the double nearest the literal `0.6`. -/
def double06 : Nat := 5404319552844595

/-- Python `int(n * r)` for an int `n` and a double `r = rnum / 2^53`
(all doubles in `[1/2, 1]`, including the defaults `0.7` and `0.6`):
the int is converted to a double, the product is rounded to double
precision, and `int()` truncates (floor, as everything is
nonnegative). -/
def intMulDouble (n rnum : Nat) : Nat :=
  roundSig53 (floatOfNat n * rnum) / 2 ^ 53

/-- result dictionary of `Summarizer.generate_summary` (the empty-input
dictionary carries zero counts). -/
structure SummaryResult where
  summary : String
  sentences : List String
  original_count : Nat
  summary_count : Nat
  sratio : ℚ
deriving DecidableEq

/-- `Summarizer.generate_summary` (summarizer.py lines 20-65); the
`summary_ratio` double is passed as its numerator over `2^53` (default
`0.7`); a `max_sentences` of `none` or `some 0` is falsy in Python and
applies no cap. -/
def generate_summary (scores : Nat → ℚ) (sentences : List String)
    (ratio_num : Nat := double07) (min_sentences : Nat := 20)
    (max_sentences : Option Nat := none) : SummaryResult :=
  if sentences.isEmpty then ⟨"", [], 0, 0, 0⟩ else
  let total := sentences.length
  let target0 := max min_sentences (intMulDouble total ratio_num)
  let target_count := match max_sentences with
    | some m => if m ≠ 0 then min target0 m else target0
    | none => target0
  let summary_sentences := get_top_sentences scores sentences (some target_count)
  ⟨String.intercalate " " summary_sentences, summary_sentences, total,
    summary_sentences.length, (summary_sentences.length : ℚ) / (total : ℚ)⟩

/-- `Summarizer.generate_key_points` (summarizer.py lines 67-95):
adaptive target `min(top_n, max(30, int(total * 0.6)))`, then the top
`min(adaptive_n, len(sentences))` sentences. -/
def generate_key_points (scores : Nat → ℚ) (sentences : List String)
    (top_n : Nat := 50) : List String :=
  if sentences.isEmpty then [] else
  let total := sentences.length
  let adaptive_n := min top_n (max 30 (intMulDouble total double06))
  get_top_sentences scores sentences (some (min adaptive_n total))

/-- ranking is a permutation of the indexed sentence list. -/
theorem rank_sentences_perm (scores : Nat → ℚ) (sentences : List String)
    (h : ¬ sentences.isEmpty) :
    (rank_sentences scores sentences).Perm
      ((List.range sentences.length).map fun i => (i, scores i, sentences.getD i "")) := by
  unfold rank_sentences
  rw [if_neg h]
  exact List.mergeSort_perm _ _

/-- strictly ascending in-bound indices select a subsequence. -/
theorem sorted_indices_sublist (l : List String) (is : List Nat)
    (hs : is.Pairwise (· < ·)) (hb : ∀ i ∈ is, i < l.length) :
    (is.map fun i => l.getD i "").Sublist l := by
  have hsub : ((is.pmap (fun i h => (⟨i, h⟩ : Fin l.length)) hb).map
      fun x => l[x]).Sublist l := by
    apply List.map_getElem_sublist
    rw [List.pairwise_pmap]
    exact hs.imp fun hab => fun h1 h2 => Fin.mk_lt_mk.2 hab
  have heq : ((is.pmap (fun i h => (⟨i, h⟩ : Fin l.length)) hb).map
      fun x => l[x]) = is.map fun i => l.getD i "" := by
    rw [List.map_pmap]
    have hc : ∀ i ∈ is, ∀ (h1 h2 : i < l.length),
        l[(⟨i, h1⟩ : Fin l.length)] = l.getD i "" := by
      intro i _ h1 _
      exact (List.getD_eq_getElem l "" h1).symm
    calc is.pmap (fun i h => l[(⟨i, h⟩ : Fin l.length)]) hb
        = is.pmap (fun i _ => l.getD i "") hb := List.pmap_congr_left is hc
      _ = is.map fun i => l.getD i "" := List.pmap_eq_map _ _ _ _
  rw [← heq]
  exact hsub

/-- the comparator used to re-sort selected indices. -/
theorem natle_trans : ∀ (a b c : Nat), (decide (a ≤ b)) = true →
    (decide (b ≤ c)) = true → (decide (a ≤ c)) = true := by
  intro a b c h1 h2
  simp only [decide_eq_true_iff] at *
  omega

theorem natle_total : ∀ (a b : Nat), ((decide (a ≤ b)) || (decide (b ≤ a))) = true := by
  intro a b
  simp only [Bool.or_eq_true, decide_eq_true_iff]
  omega

/-- C2: `get_top_sentences` always returns a subsequence of its input in
original order, for every score vector, every explicit or defaulted
`top_n` and every `top_percent` — the selected indices are re-sorted
ascending before the sentences are read back. -/
theorem C2_get_top_sentences_sublist (scores : Nat → ℚ) (sentences : List String)
    (top_n : Option Nat) (top_percent : ℚ) :
    (get_top_sentences scores sentences top_n top_percent).Sublist sentences := by
  unfold get_top_sentences
  by_cases hemp : sentences.isEmpty
  · rw [if_pos hemp]
    exact List.nil_sublist _
  rw [if_neg hemp]
  set n := top_n.getD (max 3 (⌊(sentences.length : ℚ) * top_percent⌋).toNat) with hn
  set base := (List.range sentences.length).map
    (fun i => (i, scores i, sentences.getD i "")) with hbase
  have hperm : (rank_sentences scores sentences).Perm base :=
    rank_sentences_perm scores sentences hemp
  have hfst : (base.map fun x => x.1) = List.range sentences.length := by
    rw [hbase, List.map_map]
    rw [show ((fun (x : Nat × ℚ × String) => x.1) ∘
      fun i => (i, scores i, sentences.getD i "")) = id from rfl]
    exact List.map_id _
  have htop_sub : (((rank_sentences scores sentences).take n).map fun x => x.1).Sublist
      ((rank_sentences scores sentences).map fun x => x.1) :=
    (List.take_sublist _ _).map _
  have hnodup : (((rank_sentences scores sentences).take n).map fun x => x.1).Nodup := by
    apply List.Nodup.sublist htop_sub
    have : ((rank_sentences scores sentences).map fun x => x.1).Perm
        (base.map fun x => x.1) := hperm.map _
    rw [hfst] at this
    exact this.nodup_iff.2 (List.nodup_range _)
  have hbound : ∀ i ∈ ((rank_sentences scores sentences).take n).map fun x => x.1,
      i < sentences.length := by
    intro i hi
    have h1 : i ∈ (rank_sentences scores sentences).map fun x => x.1 :=
      htop_sub.mem hi
    have h2 : i ∈ List.range sentences.length := by
      rw [← hfst]
      exact (hperm.map fun x => x.1).mem_iff.1 h1
    exact List.mem_range.1 h2
  set tis := (((rank_sentences scores sentences).take n).map fun x => x.1).mergeSort
    (fun a b => decide (a ≤ b)) with htis
  have hp : tis.Perm (((rank_sentences scores sentences).take n).map fun x => x.1) :=
    List.mergeSort_perm _ _
  have hsorted : tis.Pairwise (fun a b => a ≤ b) := by
    have := List.sorted_mergeSort natle_trans natle_total
      (((rank_sentences scores sentences).take n).map fun x => x.1)
    exact this.imp fun h => by simpa using h
  have hnd : tis.Nodup := hp.nodup_iff.2 hnodup
  have hlt : tis.Pairwise (· < ·) :=
    (hsorted.and hnd).imp fun ⟨h1, h2⟩ => lt_of_le_of_ne h1 h2
  exact sorted_indices_sublist sentences tis hlt
    fun i hi => hbound i (hp.mem_iff.1 hi)

/-- length of the top-sentence selection with an explicit `top_n`. -/
theorem get_top_sentences_length (scores : Nat → ℚ) (sentences : List String)
    (k : Nat) (tp : ℚ) :
    (get_top_sentences scores sentences (some k) tp).length = min k sentences.length := by
  unfold get_top_sentences
  by_cases hemp : sentences.isEmpty
  · rw [if_pos hemp]
    rw [List.isEmpty_iff.1 hemp]
    simp
  rw [if_neg hemp]
  simp only [Option.getD_some, List.length_map, List.length_mergeSort, List.length_take]
  have : (rank_sentences scores sentences).length = sentences.length := by
    rw [(rank_sentences_perm scores sentences hemp).length_eq]
    simp
  rw [this]

/-- the sentence count of `generate_summary` with no cap is exactly
`min(max(min_sentences, int(total * ratio)), total)` with `int(...)`
the double-precision product truncated. -/
theorem generate_summary_none_count (scores : Nat → ℚ) (sentences : List String)
    (rnum : Nat) (mins : Nat) :
    (generate_summary scores sentences rnum mins none).summary_count =
      min (max mins (intMulDouble sentences.length rnum)) sentences.length := by
  unfold generate_summary
  by_cases hemp : sentences.isEmpty
  · rw [if_pos hemp]
    rw [List.isEmpty_iff.1 hemp]
    simp
  · rw [if_neg hemp]
    simp only
    exact get_top_sentences_length scores sentences _ _

/-- the length of the key-point list is exactly
`min(min(top_n, max(30, int(total * 0.6))), total)` with `int(...)` the
double-precision product truncated. -/
theorem generate_key_points_length (scores : Nat → ℚ) (sentences : List String)
    (top_n : Nat) :
    (generate_key_points scores sentences top_n).length =
      min (min top_n (max 30 (intMulDouble sentences.length double06)))
        sentences.length := by
  unfold generate_key_points
  by_cases hemp : sentences.isEmpty
  · rw [if_pos hemp]
    rw [List.isEmpty_iff.1 hemp]
    simp
  · rw [if_neg hemp]
    simp only
    rw [get_top_sentences_length scores sentences _ _]
    omega

/-- C4 counterexample: with 35 sentences and the default ratio 0.7, the
summary selects `int(35 * 0.7) = 24` sentences, not the
`max(20, ceil(35 * 0.7)) = 25` the claim's formula demands, although 25
sentences exist and no cap is given — `int()` truncates, it does not
round up. -/
theorem C4_summary_cex :
    (generate_summary (fun _ => 0) (List.replicate 35 "s")).summary_count = 24 ∧
    max 20 (⌈((List.replicate 35 "s").length : ℚ) * (7 / 10)⌉).toNat = 25 ∧
    (25 : Nat) ≤ (List.replicate 35 "s").length ∧
    (24 : Nat) ≠ 25 := by
  refine ⟨?_, ?_, by simp, by omega⟩
  · rw [generate_summary_none_count]
    decide
  · have h2 : (⌈((List.replicate 35 "s").length : ℚ) * (7 / 10)⌉) = 25 := by
      simp only [List.length_replicate]
      norm_num [Int.ceil_eq_iff]
    rw [h2]
    rfl

/-- C4 (amended): when no cap is given and at least
`max(20, int(n * 0.7))` sentences exist (and `n` is below the float
overflow threshold `2^1024`), the extractive summary selects exactly
`max(20, int(n * 0.7))` sentences, where `int(n * 0.7)` is the
double-precision product truncated — not the ceiling, and not the exact
rational floor (`int(90 * 0.7) = 62`, not `63`); the key-point target is
`min(top_n, max(30, int(n * 0.6)))`, further limited by the number of
sentences. -/
theorem C4_summary_counts_amended (scores : Nat → ℚ) (sentences : List String)
    (h : max 20 (intMulDouble sentences.length double07) ≤ sentences.length)
    (hrange : sentences.length < 2 ^ 1024) :
    (generate_summary scores sentences).summary_count =
      max 20 (intMulDouble sentences.length double07) ∧
    ∀ top_n, (generate_key_points scores sentences top_n).length =
      min (min top_n (max 30 (intMulDouble sentences.length double06)))
        sentences.length := by
  constructor
  · rw [generate_summary_none_count]
    omega
  · intro top_n
    exact generate_key_points_length scores sentences top_n

/-- C4 witness: at 90 sentences the summary has `int(90 * 0.7) = 62`
sentences (the double product `62.99999999999999...` truncates to 62,
where the exact rational floor would give 63), and the key-point
formula takes its exact adaptive value. -/
theorem C4_summary_counts_amended_witness :
    (generate_summary (fun _ => 0) (List.replicate 90 "s")).summary_count =
      max 20 (intMulDouble 90 double07) ∧
    intMulDouble 90 double07 = 62 ∧
    (generate_key_points (fun _ => 0) (List.replicate 90 "s") 100).length =
      min (min 100 (max 30 (intMulDouble 90 double06))) 90 := by
  have h := C4_summary_counts_amended (fun _ => 0) (List.replicate 90 "s")
    (by decide)
    (by
      rw [List.length_replicate]
      exact lt_of_lt_of_le (Nat.lt_two_pow 90)
        (Nat.pow_le_pow_right (by decide) (by decide)))
  refine ⟨?_, by decide, ?_⟩
  · simpa using h.1
  · simpa using h.2 100

/-!
`KeywordExtractor` (src/modules/keyword_extractor.py).  The TF-IDF
(sklearn), RAKE (rake_nltk) and noun-phrase (spacy) methods are external
libraries modelled as explicitly passed result lists (each library emits
lowercased terms, which the claims assume); the pure-Python
`_extract_frequency_keywords` is embedded.  `_combine_keywords` merges
everything into a dict keyed by the exact term string — modelled as an
insertion-ordered association list — and returns the `top_n` best by
weighted score under Python's stable `sorted`.
-/

/-- insertion-ordered dict update `d[k] = d.get(k, 0) + v`. -/
def updScore : List (String × ℚ) → String → ℚ → List (String × ℚ)
  | [], k, v => [(k, v)]
  | (k0, v0) :: rest, k, v =>
      if k0 = k then (k0, v0 + v) :: rest else (k0, v0) :: updScore rest k v

/-- `re.findall(r'\b[a-z]{4,}\b', text.lower())`: maximal lowercase-letter
runs of length ≥ 4 whose neighbours are non-word characters (fuel =
length + 1 suffices: each round consumes at least one character). -/
def lcTokensGo : Nat → Option Char → List Char → List (List Char)
  | 0, _, _ => []
  | _ + 1, _, [] => []
  | fuel + 1, prev, c :: rest =>
      if isLowerCh c then
        let run := (c :: rest).takeWhile isLowerCh
        let after := (c :: rest).drop run.length
        (if boundaryBefore prev && 4 ≤ run.length && boundaryAfter after then [run]
          else []) ++ lcTokensGo fuel run.getLast? after
      else lcTokensGo fuel (some c) rest

/-- the stopword set of `_extract_frequency_keywords`. -/
def freqStopwords : List (List Char) :=
  ["this", "that", "with", "from", "have", "been", "were",
   "will", "would", "could", "should", "their", "there",
   "which", "when", "where", "what", "these", "those"].map String.toList

/-- insertion-ordered `collections.Counter` over a token stream. -/
def countOcc : List (List Char × Nat) → List (List Char) → List (List Char × Nat)
  | acc, [] => acc
  | acc, w :: ws =>
      countOcc
        (if acc.any fun p => p.1 = w then
          acc.map fun p => if p.1 = w then (p.1, p.2 + 1) else p
        else acc ++ [(w, 1)]) ws

/-- `KeywordExtractor._extract_frequency_keywords` (keyword_extractor.py
lines 141-156): frequency of ≥ 4-letter words minus stopwords,
`Counter.most_common(top_n)` being a stable sort by count descending. -/
def extract_frequency_keywords (text : String) (top_n : Nat) : List (String × Nat) :=
  let toks := lcTokensGo (text.toList.length + 1) none (lowerChars text.toList)
  let toks := toks.filter fun w => w ∉ freqStopwords
  let counts := countOcc [] toks
  ((counts.mergeSort fun a b => decide (b.2 ≤ a.2)).take top_n).map
    fun p => (p.1.asString, p.2)

/-- tfidf contribution of `_combine_keywords` (weight 0.35). -/
def mStageTfidf (tfidf : List (String × ℚ)) : List (String × ℚ) :=
  tfidf.foldl (fun acc kv => updScore acc kv.1 (kv.2 * (35 / 100))) []

/-- rake contribution (entries are `(score, keyword)`, scores normalized
by `min(score / 10, 1.0)`, weight 0.25); absent when RAKE is missing. -/
def mStageRake (rake : Option (List (ℚ × String))) (m : List (String × ℚ)) :
    List (String × ℚ) :=
  match rake with
  | some rk => rk.foldl (fun acc sv => updScore acc sv.2 (min (sv.1 / 10) 1 * (25 / 100))) m
  | none => m

/-- noun-phrase contribution (`(max_rank - rank) / max_rank`, weight
0.20); absent when spacy is missing. -/
def mStageNoun (nounPhrases : Option (List String)) (m : List (String × ℚ)) :
    List (String × ℚ) :=
  match nounPhrases with
  | some nps =>
      nps.enum.foldl
        (fun acc rp =>
          updScore acc rp.2
            ((((nps.length - rp.1 : Nat) : ℚ) / (nps.length : ℚ)) * (20 / 100))) m
  | none => m

/-- `max_freq = results['frequency'][0][1] if results['frequency'] else 1`. -/
def maxFreqOf (freq : List (String × Nat)) : ℚ :=
  match freq with
  | [] => 1
  | (_, c) :: _ => (c : ℚ)

/-- frequency contribution (`freq / max_freq`, weight 0.20). -/
def mStageFreq (freq : List (String × Nat)) (m : List (String × ℚ)) :
    List (String × ℚ) :=
  freq.foldl (fun acc wc => updScore acc wc.1 (((wc.2 : ℚ) / maxFreqOf freq) * (20 / 100))) m

/-- `KeywordExtractor._combine_keywords` (keyword_extractor.py lines
158-199): weighted fusion into one dict keyed by exact term, processed
tfidf → rake → noun phrases → frequency as in the source, stable-sorted
by combined score descending, truncated to `top_n`. -/
def combine_keywords (tfidf : List (String × ℚ)) (rake : Option (List (ℚ × String)))
    (nounPhrases : Option (List String)) (freq : List (String × Nat))
    (top_n : Nat) : List (String × ℚ) :=
  ((mStageFreq freq (mStageNoun nounPhrases (mStageRake rake
      (mStageTfidf tfidf)))).mergeSort fun a b => decide (b.2 ≤ a.2)).take top_n

/-- `KeywordExtractor.extract_keywords`, restricted to the `combined`
entry of its result dictionary: the tfidf / rake / noun-phrase method
outputs are library results passed in (optional methods may be absent),
the frequency method is computed from the text. -/
def extract_keywords (text : String) (tfidf : List (String × ℚ))
    (rake : Option (List (ℚ × String))) (nounPhrases : Option (List String))
    (top_n : Nat) : List (String × ℚ) :=
  combine_keywords tfidf rake nounPhrases (extract_frequency_keywords text top_n) top_n

theorem updScore_keys (d : List (String × ℚ)) (k : String) (v : ℚ) :
    (updScore d k v).map Prod.fst =
      if k ∈ d.map Prod.fst then d.map Prod.fst else d.map Prod.fst ++ [k] := by
  induction d with
  | nil => simp [updScore]
  | cons p rest ih =>
      obtain ⟨k0, v0⟩ := p
      by_cases hk : k0 = k
      · subst hk
        simp [updScore]
      · simp only [updScore, if_neg hk, List.map_cons]
        rw [ih]
        by_cases hmem : k ∈ rest.map Prod.fst
        · rw [if_pos hmem, if_pos (by simp [hmem])]
        · rw [if_neg hmem]
          rw [if_neg (by
            simp only [List.map_cons, List.mem_cons]
            rintro (h | h)
            · exact hk h.symm
            · exact hmem h)]
          simp

/-- folding `updScore` preserves distinct, lowercase-fixed keys. -/
theorem fold_updScore_inv {α : Type} (keyof : α → String) (scoreof : α → ℚ) :
    ∀ (l : List α) (m : List (String × ℚ)),
      (m.map Prod.fst).Nodup →
      (∀ p ∈ m.map Prod.fst, pyLower p = p) →
      (∀ x ∈ l, pyLower (keyof x) = keyof x) →
      ((l.foldl (fun acc x => updScore acc (keyof x) (scoreof x)) m).map Prod.fst).Nodup ∧
      (∀ p ∈ (l.foldl (fun acc x => updScore acc (keyof x) (scoreof x)) m).map Prod.fst,
        pyLower p = p) := by
  intro l
  induction l with
  | nil => intro m h1 h2 _; exact ⟨h1, h2⟩
  | cons x xs ih =>
      intro m h1 h2 h3
      rw [List.foldl_cons]
      apply ih
      · rw [updScore_keys]
        split
        · exact h1
        · rename_i hmem
          rw [List.nodup_append]
          exact ⟨h1, List.nodup_singleton _, by simpa using hmem⟩
      · rw [updScore_keys]
        split
        · exact h2
        · intro p hp
          rcases List.mem_append.1 hp with h | h
          · exact h2 p h
          · rw [List.mem_singleton.1 h]
            exact h3 x (List.mem_cons_self _ _)
      · intro y hy
        exact h3 y (List.mem_cons_of_mem _ hy)

theorem toLower_fix {c : Char} (h : isLowerCh c = true) : c.toLower = c := by
  unfold Char.toLower
  simp only [isLowerCh, Bool.and_eq_true, decide_eq_true_iff] at h
  obtain ⟨h1, h2⟩ := h
  rw [Char.le_def] at h1
  have hn : (97 : Nat) ≤ c.toNat := h1
  rw [if_neg (by omega)]

theorem lowerChars_fix {w : List Char} (h : ∀ c ∈ w, isLowerCh c = true) :
    lowerChars w = w := by
  unfold lowerChars
  induction w with
  | nil => rfl
  | cons c cs ih =>
      rw [List.map_cons, toLower_fix (h c (List.mem_cons_self _ _)),
        ih fun x hx => h x (List.mem_cons_of_mem _ hx)]

theorem lcTokensGo_lower :
    ∀ (fuel : Nat) (prev : Option Char) (l : List Char) (w : List Char),
      w ∈ lcTokensGo fuel prev l → ∀ c ∈ w, isLowerCh c = true := by
  intro fuel
  induction fuel with
  | zero => intro _ _ w hw; simp [lcTokensGo] at hw
  | succ fuel ih =>
      intro prev l w hw
      match l with
      | [] => simp [lcTokensGo] at hw
      | c :: rest =>
          rw [lcTokensGo] at hw
          by_cases hc : isLowerCh c = true
          · rw [if_pos hc] at hw
            rcases List.mem_append.1 hw with h | h
            · split at h
              · rw [List.mem_singleton.1 h]
                intro x hx
                exact List.mem_takeWhile_imp hx
              · simp at h
            · exact ih _ _ w h
          · rw [if_neg hc] at hw
            exact ih _ _ w hw

theorem countOcc_keys_sub :
    ∀ (ws : List (List Char)) (acc : List (List Char × Nat)),
      ∀ p ∈ countOcc acc ws, p.1 ∈ acc.map Prod.fst ∨ p.1 ∈ ws := by
  intro ws
  induction ws with
  | nil => intro acc p hp; exact Or.inl (List.mem_map_of_mem _ hp)
  | cons w rest ih =>
      intro acc p hp
      rw [countOcc] at hp
      rcases ih _ p hp with h | h
      · split at h
        · have h2 : p.1 ∈ acc.map Prod.fst := by
            obtain ⟨q, hq, hqe⟩ := List.mem_map.1 h
            obtain ⟨r, hr, hre⟩ := List.mem_map.1 hq
            refine List.mem_map.2 ⟨r, hr, ?_⟩
            rw [← hqe, ← hre]
            split <;> rfl
          exact Or.inl h2
        · rcases List.mem_map.1 h with ⟨q, hq, hqe⟩
          rcases List.mem_append.1 hq with h2 | h2
          · exact Or.inl (hqe ▸ List.mem_map_of_mem _ h2)
          · rw [List.mem_singleton.1 h2] at hqe
            exact Or.inr (hqe ▸ List.mem_cons_self _ _)
      · exact Or.inr (List.mem_cons_of_mem _ h)

/-- every frequency-method term is already lowercase. -/
theorem extract_frequency_lower (text : String) (top_n : Nat) :
    ∀ p ∈ extract_frequency_keywords text top_n, pyLower p.1 = p.1 := by
  intro p hp
  unfold extract_frequency_keywords at hp
  obtain ⟨q, hq, hqe⟩ := List.mem_map.1 hp
  have hq2 := List.mem_of_mem_take hq
  have hq3 : q ∈ countOcc []
      ((lcTokensGo (text.toList.length + 1) none (lowerChars text.toList)).filter
        fun w => w ∉ freqStopwords) :=
    (List.mergeSort_perm _ _).mem_iff.1 hq2
  have hkey := countOcc_keys_sub _ _ q hq3
  have hq4 : q.1 ∈ lcTokensGo (text.toList.length + 1) none (lowerChars text.toList) := by
    rcases hkey with h | h
    · simp at h
    · exact List.mem_of_mem_filter h
  have hlow : ∀ c ∈ q.1, isLowerCh c = true := lcTokensGo_lower _ _ _ _ hq4
  rw [← hqe]
  show pyLower q.1.asString = q.1.asString
  unfold pyLower
  have : (q.1.asString).toList = q.1 := rfl
  rw [this, lowerChars_fix hlow]

theorem mStageTfidf_inv (tfidf : List (String × ℚ))
    (htf : ∀ p ∈ tfidf, pyLower p.1 = p.1) :
    ((mStageTfidf tfidf).map Prod.fst).Nodup ∧
    (∀ p ∈ (mStageTfidf tfidf).map Prod.fst, pyLower p = p) := by
  unfold mStageTfidf
  exact fold_updScore_inv (fun (kv : String × ℚ) => kv.1) (fun kv => kv.2 * (35 / 100))
    tfidf [] (by simp) (by simp) htf

theorem mStageRake_inv (rake : Option (List (ℚ × String))) (m : List (String × ℚ))
    (hm : (m.map Prod.fst).Nodup) (hml : ∀ p ∈ m.map Prod.fst, pyLower p = p)
    (hrk : ∀ l, rake = some l → ∀ p ∈ l, pyLower p.2 = p.2) :
    ((mStageRake rake m).map Prod.fst).Nodup ∧
    (∀ p ∈ (mStageRake rake m).map Prod.fst, pyLower p = p) := by
  cases rake with
  | none => exact ⟨hm, hml⟩
  | some rk =>
      simp only [mStageRake]
      exact fold_updScore_inv (fun (sv : ℚ × String) => sv.2)
        (fun sv => min (sv.1 / 10) 1 * (25 / 100)) rk m hm hml (hrk rk rfl)

theorem mStageNoun_inv (nounPhrases : Option (List String)) (m : List (String × ℚ))
    (hm : (m.map Prod.fst).Nodup) (hml : ∀ p ∈ m.map Prod.fst, pyLower p = p)
    (hnp : ∀ l, nounPhrases = some l → ∀ p ∈ l, pyLower p = p) :
    ((mStageNoun nounPhrases m).map Prod.fst).Nodup ∧
    (∀ p ∈ (mStageNoun nounPhrases m).map Prod.fst, pyLower p = p) := by
  cases nounPhrases with
  | none => exact ⟨hm, hml⟩
  | some nps =>
      simp only [mStageNoun]
      refine fold_updScore_inv (fun (rp : Nat × String) => rp.2)
        (fun rp => (((nps.length - rp.1 : Nat) : ℚ) / (nps.length : ℚ)) * (20 / 100))
        nps.enum m hm hml ?_
      intro x hx
      refine hnp nps rfl x.2 ?_
      have hmem : x.2 ∈ nps.enum.map Prod.snd := List.mem_map_of_mem _ hx
      rwa [List.enum_map_snd] at hmem

theorem mStageFreq_inv (freq : List (String × Nat)) (m : List (String × ℚ))
    (hm : (m.map Prod.fst).Nodup) (hml : ∀ p ∈ m.map Prod.fst, pyLower p = p)
    (hfr : ∀ p ∈ freq, pyLower p.1 = p.1) :
    ((mStageFreq freq m).map Prod.fst).Nodup ∧
    (∀ p ∈ (mStageFreq freq m).map Prod.fst, pyLower p = p) := by
  unfold mStageFreq
  exact fold_updScore_inv (fun (wc : String × Nat) => wc.1)
    (fun wc => ((wc.2 : ℚ) / maxFreqOf freq) * (20 / 100)) freq m hm hml hfr

/-- C5: the combined keyword list has at most `top_n` entries and no two
entries share the same case-insensitively normalized term, assuming the
external methods emit lowercase terms (sklearn, rake_nltk and the
code's own `.lower()` calls all do); the frequency method's lowercasing
is proved from the embedding. -/
theorem C5_extract_keywords_bound (text : String) (tfidf : List (String × ℚ))
    (rake : Option (List (ℚ × String))) (nounPhrases : Option (List String)) (top_n : Nat)
    (htf : ∀ p ∈ tfidf, pyLower p.1 = p.1)
    (hrk : ∀ l, rake = some l → ∀ p ∈ l, pyLower p.2 = p.2)
    (hnp : ∀ l, nounPhrases = some l → ∀ p ∈ l, pyLower p = p) :
    (extract_keywords text tfidf rake nounPhrases top_n).length ≤ top_n ∧
    (extract_keywords text tfidf rake nounPhrases top_n).Pairwise
      (fun a b => pyLower a.1 ≠ pyLower b.1) := by
  unfold extract_keywords combine_keywords
  have h1 := mStageTfidf_inv tfidf htf
  have h2 := mStageRake_inv rake _ h1.1 h1.2 hrk
  have h3 := mStageNoun_inv nounPhrases _ h2.1 h2.2 hnp
  have h4 := mStageFreq_inv (extract_frequency_keywords text top_n) _ h3.1 h3.2
    (extract_frequency_lower text top_n)
  set m4 := mStageFreq (extract_frequency_keywords text top_n)
    (mStageNoun nounPhrases (mStageRake rake (mStageTfidf tfidf))) with hm4
  refine ⟨List.length_take_le _ _, ?_⟩
  have hperm : (m4.mergeSort fun a b => decide (b.2 ≤ a.2)).Perm m4 :=
    List.mergeSort_perm _ _
  have hnodup : ((m4.mergeSort fun a b => decide (b.2 ≤ a.2)).map Prod.fst).Nodup :=
    (hperm.map Prod.fst).nodup_iff.2 h4.1
  have hpw : ((m4.mergeSort fun a b => decide (b.2 ≤ a.2)).take top_n).Pairwise
      (fun a b => a.1 ≠ b.1) :=
    (List.pairwise_map.1 hnodup).sublist (List.take_sublist _ _)
  refine hpw.imp_of_mem ?_
  intro a b ha hb hne
  have hma : a ∈ m4 := hperm.mem_iff.1 (List.mem_of_mem_take ha)
  have hmb : b ∈ m4 := hperm.mem_iff.1 (List.mem_of_mem_take hb)
  rw [h4.2 a.1 (List.mem_map_of_mem _ hma), h4.2 b.1 (List.mem_map_of_mem _ hmb)]
  exact hne

/-- C5 witness: one tfidf keyword plus one frequency keyword. -/
theorem C5_extract_keywords_bound_witness :
    (extract_keywords "beta beta beta beta" [("alpha", 1)] none none 15).length ≤ 15 ∧
    (extract_keywords "beta beta beta beta" [("alpha", 1)] none none 15).Pairwise
      (fun a b => pyLower a.1 ≠ pyLower b.1) :=
  C5_extract_keywords_bound "beta beta beta beta" [("alpha", 1)] none none 15
    (by
      intro p hp
      rw [List.mem_singleton.1 hp]
      rfl)
    (fun l h => nomatch h) (fun l h => nomatch h)

/-!
`QAGenerator` (src/modules/qa_generator.py).  A generated Q&A pair: the
Python dict with keys `question`, `answer`, `type` and (for keyword
questions) `keyword`.
-/

structure QAPair where
  question : String
  answer : String
  qtype : String
  keyword : Option String
deriving Repr, DecidableEq

/-- Python `str.title()` (ASCII): a letter after a non-letter is uppercased,
a letter after a letter is lowercased; the flag carries whether the previous
character was a letter. -/
def pyTitleGo : Bool → List Char → List Char
  | _, [] => []
  | prevCased, c :: rest =>
      (if isLetterCh c then (if prevCased then c.toLower else c.toUpper) else c)
        :: pyTitleGo (isLetterCh c) rest

/-- Python `str.title()` on strings. -/
def pyTitle (s : String) : String := (pyTitleGo false s.toList).asString

/-- the four `definition` question templates, instantiated at a term
(qa_generator.py lines 37-42). -/
def definitionTemplates (term : String) : List String :=
  ["What is " ++ term ++ "?", "Define " ++ term ++ ".",
   "Explain " ++ term ++ ".", "What do you mean by " ++ term ++ "?"]

/-- `_find_sentence_with_keyword`: first sentence containing the lowercased
keyword case-insensitively, else the empty string. -/
def find_sentence_with_keyword (keyword : String) (sentences : List String) : String :=
  match sentences.find? (fun s => containsSub (lowerChars s.toList) (lowerChars keyword.toList)) with
  | some s => s
  | none => ""

/-- loop of `_generate_keyword_questions`: one Q&A pair per keyword whose
answer sentence is nonempty; `rand i` models the `random.choice` pick for
the keyword at position `i`. -/
def keywordQsGo (rand : Nat → Nat) (sentences : List String) :
    Nat → List (String × ℚ) → List QAPair
  | _, [] => []
  | i, (keyword, _) :: rest =>
      let answer_sent := find_sentence_with_keyword keyword sentences
      if answer_sent ≠ "" then
        { question := (definitionTemplates (pyTitle keyword)).getD (rand i % 4) "",
          answer := answer_sent, qtype := "definition", keyword := some keyword } ::
          keywordQsGo rand sentences (i + 1) rest
      else keywordQsGo rand sentences (i + 1) rest

/-- `_generate_keyword_questions`: only the first 10 keywords are used. -/
def generate_keyword_questions (rand : Nat → Nat) (keywords : List (String × ℚ))
    (sentences : List String) : List QAPair :=
  keywordQsGo rand sentences 0 (keywords.take 10)

/-!
The three `re.match` patterns `^([A-Z][a-z\s]+)\s+is\s+(.+?)\.` (and `can`,
`helps?`), hand-compiled.  Group 1 takes its maximal `[a-z\s]` run and
backtracks downward; for each group-1 length the rest of the pattern is a
pure success test (group 2 is unused by the caller), so backtracking inside
the tail is existential.
-/

/-- tail `(.+?)\.`: some position `k ≥ 1` holds `'.'` with only
non-newline characters before it. -/
def lazyDotTail (l : List Char) : Bool :=
  ((l.takeWhile (fun c => c ≠ '\n')).drop 1).contains '.'

/-- tail `\s+(.+?)\.`: `\s+` consumes `t+1 ≤ w` leading whitespace characters
for some `t`, then the lazy-dot tail succeeds. -/
def wsLazyDot (l : List Char) : Bool :=
  let w := (l.takeWhile isPySpace).length
  (List.range w).any fun t => lazyDotTail (l.drop (t + 1))

/-- tail `\s+VERB[s?]\s+(.+?)\.` after group 1. -/
def verbTail (verb : List Char) (optS : Bool) (l : List Char) : Bool :=
  let w := (l.takeWhile isPySpace).length
  (List.range w).any fun t =>
    let l1 := l.drop (t + 1)
    l1.take verb.length = verb &&
      ((optS && (l1.drop verb.length).take 1 = ['s'] &&
          wsLazyDot (l1.drop (verb.length + 1))) ||
        wsLazyDot (l1.drop verb.length))

/-- `re.match(r'^([A-Z][a-z\s]+)\s+VERB\s+(.+?)\.', s)`, returning group 1
(the capital plus its longest `[a-z\s]` continuation for which the tail
matches). -/
def patSubject (verb : List Char) (optS : Bool) (s : String) : Option String :=
  match s.toList with
  | [] => none
  | c :: rest =>
      if isUpperCh c then
        match (List.range ((rest.takeWhile isLowerOrSpace).length)).reverse.find?
            (fun g1 => verbTail verb optS (rest.drop (g1 + 1))) with
        | some g1 => some ((c :: rest.take (g1 + 1)).asString)
        | none => none
      else none

/-- non-overlapping occurrence count of `pat` (as in `str.split(sep)`:
`len(parts) = count + 1`). -/
def countSubGo (pat : List Char) : Nat → List Char → Nat
  | 0, _ => 0
  | _ + 1, [] => 0
  | fuel + 1, c :: rest =>
      if (c :: rest).take pat.length = pat then
        1 + countSubGo pat fuel ((c :: rest).drop pat.length)
      else countSubGo pat fuel rest

/-- the text before the first occurrence of `pat` (`parts[0]` of `split`). -/
def beforeFirstGo (pat : List Char) : Nat → List Char → List Char
  | 0, _ => []
  | _ + 1, [] => []
  | fuel + 1, c :: rest =>
      if (c :: rest).take pat.length = pat then []
      else c :: beforeFirstGo pat fuel rest

/-- `_generate_pattern_questions` for one sentence: the `is`/`can`/`helps?`
subject patterns plus the `because` split (guarded case-insensitively, split
case-sensitively, and only when `because` occurs exactly once). -/
def patternQsOf (s : String) : List QAPair :=
  (match patSubject ("is".toList) false s with
   | some subj => [⟨"What is " ++ subj ++ "?", s, "definition", none⟩]
   | none => []) ++
  (match patSubject ("can".toList) false s with
   | some subj => [⟨"What can " ++ subj ++ " do?", s, "capability", none⟩]
   | none => []) ++
  (match patSubject ("help".toList) true s with
   | some subj => [⟨"How does " ++ subj ++ " help?", s, "purpose", none⟩]
   | none => []) ++
  (if containsSub (lowerChars s.toList) ("because".toList) &&
      countSubGo ("because".toList) s.toList.length s.toList = 1 then
     [⟨"Why " ++
         pyLower (pyStrip (beforeFirstGo ("because".toList) s.toList.length s.toList).asString) ++
         "?", s, "explanation", none⟩]
   else [])

/-- `_generate_pattern_questions`. -/
def generate_pattern_questions (sentences : List String) : List QAPair :=
  (sentences.map patternQsOf).flatten

/-- `_basic_transform`: sentences containing a digit become a factual
question about their first word. -/
def basic_transform (s : String) : Option QAPair :=
  if s.toList.any isDigitCh then
    some ⟨"What is mentioned about " ++ ((pySplit s).getD 0 "") ++ "?", s, "factual", none⟩
  else none

/-- `_generate_transform_questions`: sentences of 5-30 words are transformed,
via spaCy when available (`spacyT = some f`, an uninterpreted transformer)
and `_basic_transform` otherwise. -/
def generate_transform_questions (spacyT : Option (String → Option QAPair))
    (sentences : List String) : List QAPair :=
  (sentences.map fun s =>
    let word_count := (pySplit s).length
    if word_count < 5 || word_count > 30 then []
    else
      match spacyT with
      | some f => (f s).toList
      | none => (basic_transform s).toList).flatten

/-- one step of `_deduplicate_questions`: the state is the `seen_questions`
set and the accumulated unique pairs; a pair is kept when its
lowered-then-stripped question is new and its answer is nonempty. -/
def dedupQStep (st : List String × List QAPair) (qa : QAPair) :
    List String × List QAPair :=
  let q := pyStrip (pyLower qa.question)
  if q ∉ st.1 ∧ qa.answer ≠ "" then (q :: st.1, st.2 ++ [qa]) else st

/-- `_deduplicate_questions`. -/
def deduplicate_questions (qas : List QAPair) : List QAPair :=
  (qas.foldl dedupQStep ([], [])).2

/-- `generate_questions`: keyword, pattern and transform questions
concatenated, deduplicated, truncated to `num_questions`. -/
def generate_questions (rand : Nat → Nat) (spacyT : Option (String → Option QAPair))
    (sentences : List String) (keywords : List (String × ℚ))
    (num_questions : Nat) : List QAPair :=
  let qa_pairs := generate_keyword_questions rand keywords sentences ++
    generate_pattern_questions sentences ++ generate_transform_questions spacyT sentences
  (deduplicate_questions qa_pairs).take num_questions

theorem charOfNat_toNat {n : Nat} (h : n ≤ 122) : (Char.ofNat n).toNat = n := by
  unfold Char.ofNat
  rw [dif_pos (Or.inl (by omega))]
  rfl

theorem isPySpace_toLower (c : Char) : isPySpace c.toLower = isPySpace c := by
  show isPySpace (if c.toNat ≥ 65 ∧ c.toNat ≤ 90 then Char.ofNat (c.toNat + 32) else c) =
    isPySpace c
  by_cases h : c.toNat ≥ 65 ∧ c.toNat ≤ 90
  · rw [if_pos h]
    have hL : (Char.ofNat (c.toNat + 32)).toNat = c.toNat + 32 := charOfNat_toNat (by omega)
    have h1 : isPySpace c = false := by
      unfold isPySpace
      simp only [Bool.or_eq_false_iff, decide_eq_false_iff_not]
      refine ⟨⟨⟨⟨⟨?_, ?_⟩, ?_⟩, ?_⟩, ?_⟩, ?_⟩ <;>
        (intro he; have hx := congrArg Char.toNat he; simp at hx; try omega)
    have h2 : isPySpace (Char.ofNat (c.toNat + 32)) = false := by
      unfold isPySpace
      simp only [Bool.or_eq_false_iff, decide_eq_false_iff_not]
      refine ⟨⟨⟨⟨⟨?_, ?_⟩, ?_⟩, ?_⟩, ?_⟩, ?_⟩ <;>
        (intro he; have hx := congrArg Char.toNat he; rw [hL] at hx; simp at hx; try omega)
    rw [h1, h2]
  · rw [if_neg h]

theorem pyStripL_lowerChars (l : List Char) :
    pyStripL (lowerChars l) = lowerChars (pyStripL l) := by
  have hps : isPySpace ∘ Char.toLower = isPySpace := funext isPySpace_toLower
  unfold pyStripL lowerChars
  rw [List.dropWhile_map, hps, ← List.map_reverse, List.dropWhile_map, hps, ← List.map_reverse]

theorem pyStrip_pyLower (s : String) : pyStrip (pyLower s) = pyLower (pyStrip s) := by
  show ((pyStripL (lowerChars s.toList)).asString) = (lowerChars (pyStripL s.toList)).asString
  rw [pyStripL_lowerChars]

theorem dedupQ_foldl_inv (l : List QAPair) (st : List String × List QAPair)
    (h1 : ∀ qa ∈ st.2, pyStrip (pyLower qa.question) ∈ st.1)
    (h2 : st.2.Pairwise
      (fun a b => pyStrip (pyLower a.question) ≠ pyStrip (pyLower b.question))) :
    (∀ qa ∈ (l.foldl dedupQStep st).2,
        pyStrip (pyLower qa.question) ∈ (l.foldl dedupQStep st).1) ∧
    (l.foldl dedupQStep st).2.Pairwise
      (fun a b => pyStrip (pyLower a.question) ≠ pyStrip (pyLower b.question)) := by
  induction l generalizing st with
  | nil => exact ⟨h1, h2⟩
  | cons qa l ih =>
      rw [List.foldl_cons]
      refine ih (dedupQStep st qa) ?_ ?_
      · intro x hx
        simp only [dedupQStep] at hx ⊢
        by_cases hc : pyStrip (pyLower qa.question) ∉ st.1 ∧ qa.answer ≠ ""
        · rw [if_pos hc] at hx ⊢
          simp only [List.mem_append, List.mem_singleton] at hx
          rcases hx with hx | hx
          · exact List.mem_cons_of_mem _ (h1 x hx)
          · subst hx
            exact List.mem_cons_self _ _
        · rw [if_neg hc] at hx ⊢
          exact h1 x hx
      · simp only [dedupQStep]
        by_cases hc : pyStrip (pyLower qa.question) ∉ st.1 ∧ qa.answer ≠ ""
        · rw [if_pos hc]
          show (st.2 ++ [qa]).Pairwise _
          rw [List.pairwise_append]
          refine ⟨h2, List.pairwise_singleton _ _, ?_⟩
          intro x hx y hy
          simp only [List.mem_singleton] at hy
          subst hy
          intro heq
          exact hc.1 (heq ▸ h1 x hx)
        · rw [if_neg hc]
          exact h2

/-- C6: for every sentence list, keyword list and requested question count,
`generate_questions` returns at most `num_questions` pairs, and no two
returned pairs have question texts that are equal case-insensitively after
stripping. -/
theorem C6_generate_questions_unique (rand : Nat → Nat)
    (spacyT : Option (String → Option QAPair)) (sentences : List String)
    (keywords : List (String × ℚ)) (num_questions : Nat) :
    (generate_questions rand spacyT sentences keywords num_questions).length ≤ num_questions ∧
    (generate_questions rand spacyT sentences keywords num_questions).Pairwise
      (fun a b => pyLower (pyStrip a.question) ≠ pyLower (pyStrip b.question)) := by
  constructor
  · exact List.length_take_le _ _
  · have hinv := dedupQ_foldl_inv
      (generate_keyword_questions rand keywords sentences ++
        generate_pattern_questions sentences ++ generate_transform_questions spacyT sentences)
      ([], []) (by intro qa hqa; simp at hqa) (List.Pairwise.nil)
    have hp := hinv.2
    have hp2 : (deduplicate_questions
        (generate_keyword_questions rand keywords sentences ++
          generate_pattern_questions sentences ++
          generate_transform_questions spacyT sentences)).Pairwise
        (fun a b => pyLower (pyStrip a.question) ≠ pyLower (pyStrip b.question)) := by
      refine (hp.imp ?_)
      intro a b hne heq
      rw [pyStrip_pyLower, pyStrip_pyLower] at hne
      exact hne heq
    exact hp2.sublist (List.take_sublist _ _)

/-!
`IntelligentExtractor` (src/modules/intelligent_extractor.py).  The four
sentence classifiers are `re.search` tests with `\b`-bounded literal
alternations (`re.IGNORECASE`: the text is lowercased and the alternatives
are given in lowercase; optional letters such as `refers?` are expanded
into both alternatives), plus two start-anchored patterns.
-/

/-- scan of `re.search(r'\b(alt|...)\b', text)`: at some position whose
predecessor is not a word character, an alternative matches and is followed
by a non-word character or the end. -/
def searchWordAltGo (alts : List (List Char)) : Option Char → List Char → Bool
  | _, [] => false
  | prev, c :: rest =>
      (boundaryBefore prev &&
        alts.any fun alt =>
          (c :: rest).take alt.length = alt && boundaryAfter ((c :: rest).drop alt.length)) ||
      searchWordAltGo alts (some c) rest

/-- case-insensitive `re.search(r'\b(...)\b', sent, re.IGNORECASE)`. -/
def searchWordAltCI (alts : List (List Char)) (s : String) : Bool :=
  searchWordAltGo alts none (lowerChars s.toList)

/-- `re.search(r'^[A-Z][a-z]+:', sent, re.IGNORECASE)`: a letter, one or
more further letters, then a colon right after the (necessarily maximal)
letter run, at the start of the string. -/
def anchoredLettersColon : List Char → Bool
  | [] => false
  | c :: rest =>
      isLetterCh c && 1 ≤ (rest.takeWhile isLetterCh).length &&
        (rest.drop (rest.takeWhile isLetterCh).length).take 1 = [':']

/-- `re.search(r'^\d+\.', sent)`: digits then a period at the start. -/
def anchoredNumDot : List Char → Bool
  | [] => false
  | c :: rest =>
      isDigitCh c && (rest.drop (rest.takeWhile isDigitCh).length).take 1 = ['.']

/-- `_is_definition` (intelligent_extractor.py lines 172-180). -/
def is_definition (sent : String) : Bool :=
  searchWordAltCI [['i','s'], ['a','r','e'], "refer to".toList, "refers to".toList,
      "mean".toList, "means".toList, "defined as".toList, "known as".toList] sent ||
    searchWordAltCI ["definition".toList, "defined".toList] sent ||
    anchoredLettersColon sent.toList ||
    searchWordAltCI ["called".toList, "termed".toList] sent

/-- `_is_procedure` (lines 182-190). -/
def is_procedure (sent : String) : Bool :=
  anchoredNumDot sent.toList ||
    searchWordAltCI ["step".toList, "first".toList, "second".toList, "then".toList,
      "next".toList, "finally".toList, "procedure".toList] sent ||
    searchWordAltCI ["method".toList, "process".toList, "technique".toList] sent ||
    searchWordAltCI ["should".toList, "must".toList, "need to".toList, "have to".toList] sent

/-- `_is_concept` (lines 192-200). -/
def is_concept (sent : String) : Bool :=
  searchWordAltCI ["principle".toList, "theory".toList, "concept".toList,
      "idea".toList, "approach".toList] sent ||
    searchWordAltCI ["because".toList, "therefore".toList, "thus".toList,
      "hence".toList, "since".toList] sent ||
    searchWordAltCI ["allow".toList, "allows".toList, "enable".toList, "enables".toList,
      "provide".toList, "provides".toList, "ensure".toList, "ensures".toList] sent ||
    searchWordAltCI ["advantage".toList, "benefit".toList, "importance".toList,
      "significance".toList] sent

/-- the noise substrings of `_is_important`. -/
def noiseSubs : List String :=
  ["dept.", "signature", "marks obtained", "sl.no", "criteria",
   "page number", "copyright", "all rights reserved", "table", "figure"]

/-- `_is_important` (lines 202-221): no noise substring, digit ratio at most
0.4 (exactly: `5*digits ≤ 2*max(len,1)`), and 5-50 words. -/
def is_important (sent : String) : Bool :=
  if noiseSubs.any (fun p => containsSub (lowerChars sent.toList) p.toList) then false
  else if 2 * max sent.length 1 < 5 * (sent.toList.filter isDigitCh).length then false
  else
    let word_count := (pySplit sent).length
    if word_count < 5 || word_count > 50 then false
    else true

/-- `_split_into_sentences` (lines 166-170): split on `[.!?]+` runs, strip,
keep pieces longer than 20 characters. -/
def split_into_sentences (text : String) : List String :=
  ((splitSentences text.toList).map (fun l => (pyStripL l).asString)).filter
    (fun s => 20 < s.length)

/-- the `if/elif` classification chain of `_extract_page_content`
(lines 86-93) as a function: the first matching category, if any. -/
def classify_sentence (sent : String) : Option String :=
  if is_definition sent then some "definition"
  else if is_procedure sent then some "procedure"
  else if is_concept sent then some "concept"
  else if is_important sent then some "content"
  else none

/-- the four per-category sentence buckets built by `_extract_page_content`
(lines 75-93), in source order. -/
structure Buckets where
  definitions : List String
  procedures : List String
  concepts : List String
  general_points : List String
deriving Repr, DecidableEq

/-- bucket loop of `_extract_page_content`: each stripped sentence of
length at least 20 is appended to the bucket of its first matching
category. -/
def pageBuckets : List String → Buckets
  | [] => ⟨[], [], [], []⟩
  | sent :: rest =>
      let r := pageBuckets rest
      let s := pyStrip sent
      if s.length < 20 then r
      else if is_definition s then { r with definitions := s :: r.definitions }
      else if is_procedure s then { r with procedures := s :: r.procedures }
      else if is_concept s then { r with concepts := s :: r.concepts }
      else if is_important s then { r with general_points := s :: r.general_points }
      else r

/-- one entry of the `points` list built by `_extract_page_content`
(lines 101-130): the dict with keys `text`, `page`, `type`. -/
structure ContentPoint where
  text : String
  page : Nat
  ptype : String
deriving Repr, DecidableEq

/-- the `points` field of `_extract_page_content` (lines 95-131): each
bucket deduplicated, capped per category (5/5/5/10) and tagged with the
page number, in source order definitions, concepts, procedures, content. -/
def extract_page_content_points (text : String) (page_num : Nat) : List ContentPoint :=
  let b := pageBuckets (split_into_sentences text)
  let definitions := deduplicate_list b.definitions
  let procedures := deduplicate_list b.procedures
  let concepts := deduplicate_list b.concepts
  let general_points := deduplicate_list b.general_points
  ((definitions.take 5).map fun t => ⟨t, page_num, "definition"⟩) ++
    ((concepts.take 5).map fun t => ⟨t, page_num, "concept"⟩) ++
    ((procedures.take 5).map fun t => ⟨t, page_num, "procedure"⟩) ++
    ((general_points.take 10).map fun t => ⟨t, page_num, "content"⟩)

theorem mem_of_mem_dedup {l : List String} {u : String}
    (h : u ∈ deduplicate_list l) : u ∈ l := by
  have hs := dedup_sublist_aux l ([], []) [] (by simp)
  simp only [List.nil_append] at hs
  exact hs.subset h

theorem pageBuckets_classify (sents : List String) :
    (∀ x ∈ (pageBuckets sents).definitions, classify_sentence x = some "definition") ∧
    (∀ x ∈ (pageBuckets sents).procedures, classify_sentence x = some "procedure") ∧
    (∀ x ∈ (pageBuckets sents).concepts, classify_sentence x = some "concept") ∧
    (∀ x ∈ (pageBuckets sents).general_points, classify_sentence x = some "content") := by
  induction sents with
  | nil =>
      refine ⟨?_, ?_, ?_, ?_⟩ <;> (intro x hx; simp [pageBuckets] at hx)
  | cons sent rest ih =>
      obtain ⟨ih1, ih2, ih3, ih4⟩ := ih
      simp only [pageBuckets]
      by_cases h0 : (pyStrip sent).length < 20
      · rw [if_pos h0]
        exact ⟨ih1, ih2, ih3, ih4⟩
      · rw [if_neg h0]
        by_cases h1 : is_definition (pyStrip sent) = true
        · rw [if_pos h1]
          refine ⟨?_, ih2, ih3, ih4⟩
          intro x hx
          rcases List.mem_cons.1 hx with rfl | hx
          · simp [classify_sentence, h1]
          · exact ih1 x hx
        · rw [if_neg h1]
          rw [Bool.not_eq_true] at h1
          by_cases h2 : is_procedure (pyStrip sent) = true
          · rw [if_pos h2]
            refine ⟨ih1, ?_, ih3, ih4⟩
            intro x hx
            rcases List.mem_cons.1 hx with rfl | hx
            · simp [classify_sentence, h1, h2]
            · exact ih2 x hx
          · rw [if_neg h2]
            rw [Bool.not_eq_true] at h2
            by_cases h3 : is_concept (pyStrip sent) = true
            · rw [if_pos h3]
              refine ⟨ih1, ih2, ?_, ih4⟩
              intro x hx
              rcases List.mem_cons.1 hx with rfl | hx
              · simp [classify_sentence, h1, h2, h3]
              · exact ih3 x hx
            · rw [if_neg h3]
              rw [Bool.not_eq_true] at h3
              by_cases h4 : is_important (pyStrip sent) = true
              · rw [if_pos h4]
                refine ⟨ih1, ih2, ih3, ?_⟩
                intro x hx
                rcases List.mem_cons.1 hx with rfl | hx
                · simp [classify_sentence, h1, h2, h3, h4]
                · exact ih4 x hx
              · rw [if_neg h4]
                exact ⟨ih1, ih2, ih3, ih4⟩

/-- C3: every point emitted by `_extract_page_content` carries exactly the
category assigned by the first-matching classifier chain (definition, then
procedure, then concept, then content); hence at most one category is
assigned per sentence, and a sentence matching the definition predicate is
never recorded as a procedure, concept or generic content point. -/
theorem C3_points_first_match_classified (text : String) (page_num : Nat) :
    ∀ p ∈ extract_page_content_points text page_num,
      classify_sentence p.text = some p.ptype := by
  intro p hp
  obtain ⟨hb1, hb2, hb3, hb4⟩ := pageBuckets_classify (split_into_sentences text)
  simp only [extract_page_content_points, List.mem_append, or_assoc] at hp
  rcases hp with h | h | h | h
  · rcases List.mem_map.1 h with ⟨t, ht, rfl⟩
    exact hb1 t (mem_of_mem_dedup (List.mem_of_mem_take ht))
  · rcases List.mem_map.1 h with ⟨t, ht, rfl⟩
    exact hb3 t (mem_of_mem_dedup (List.mem_of_mem_take ht))
  · rcases List.mem_map.1 h with ⟨t, ht, rfl⟩
    exact hb2 t (mem_of_mem_dedup (List.mem_of_mem_take ht))
  · rcases List.mem_map.1 h with ⟨t, ht, rfl⟩
    exact hb4 t (mem_of_mem_dedup (List.mem_of_mem_take ht))

theorem C3_points_first_match_classified_witness :
    (⟨"Machine learning is a subset of artificial intelligence", 4,
        "definition"⟩ : ContentPoint) ∈
      extract_page_content_points
        "Machine learning is a subset of artificial intelligence." 4 ∧
    classify_sentence "Machine learning is a subset of artificial intelligence" =
      some "definition" :=
  ⟨by decide, C3_points_first_match_classified
    "Machine learning is a subset of artificial intelligence." 4
    ⟨"Machine learning is a subset of artificial intelligence", 4, "definition"⟩
    (by decide)⟩

theorem filterMapConstTrue {α β : Type} (f : α → β) (p : β → Bool) (l : List α)
    (h : ∀ a, p (f a) = true) : (l.map f).filter p = l.map f := by
  induction l with
  | nil => rfl
  | cons a l ih => simp [h a, ih]

theorem filterMapConstFalse {α β : Type} (f : α → β) (p : β → Bool) (l : List α)
    (h : ∀ a, p (f a) = false) : (l.map f).filter p = [] := by
  induction l with
  | nil => rfl
  | cons a l ih => simp [h a, ih]

/-- C9: for every page text, the emitted points contain at most 5
definitions, at most 5 concepts, at most 5 procedures and at most 10
generic content points, and every point is tagged with the given page
number. -/
theorem C9_points_caps_and_page (text : String) (page_num : Nat) :
    ((extract_page_content_points text page_num).filter
        (fun p => p.ptype == "definition")).length ≤ 5 ∧
    ((extract_page_content_points text page_num).filter
        (fun p => p.ptype == "concept")).length ≤ 5 ∧
    ((extract_page_content_points text page_num).filter
        (fun p => p.ptype == "procedure")).length ≤ 5 ∧
    ((extract_page_content_points text page_num).filter
        (fun p => p.ptype == "content")).length ≤ 10 ∧
    (extract_page_content_points text page_num).all
        (fun p => p.page == page_num) = true := by
  simp only [extract_page_content_points]
  refine ⟨?_, ?_, ?_, ?_, ?_⟩
  · rw [List.filter_append, List.filter_append, List.filter_append,
      filterMapConstTrue _ _ _ (fun t => rfl), filterMapConstFalse _ _ _ (fun t => rfl),
      filterMapConstFalse _ _ _ (fun t => rfl), filterMapConstFalse _ _ _ (fun t => rfl)]
    simp [List.length_take]
  · rw [List.filter_append, List.filter_append, List.filter_append,
      filterMapConstFalse _ _ _ (fun t => rfl), filterMapConstTrue _ _ _ (fun t => rfl),
      filterMapConstFalse _ _ _ (fun t => rfl), filterMapConstFalse _ _ _ (fun t => rfl)]
    simp [List.length_take]
  · rw [List.filter_append, List.filter_append, List.filter_append,
      filterMapConstFalse _ _ _ (fun t => rfl), filterMapConstFalse _ _ _ (fun t => rfl),
      filterMapConstTrue _ _ _ (fun t => rfl), filterMapConstFalse _ _ _ (fun t => rfl)]
    simp [List.length_take]
  · rw [List.filter_append, List.filter_append, List.filter_append,
      filterMapConstFalse _ _ _ (fun t => rfl), filterMapConstFalse _ _ _ (fun t => rfl),
      filterMapConstFalse _ _ _ (fun t => rfl), filterMapConstTrue _ _ _ (fun t => rfl)]
    simp [List.length_take]
  · rw [List.all_eq_true]
    intro p hp
    simp only [List.mem_append, or_assoc] at hp
    rcases hp with h | h | h | h <;>
      (rcases List.mem_map.1 h with ⟨t, ht, rfl⟩; simp)

end Notes
